import Mathlib

/-!
Verification of the pattern engine of a minimal grep-style utility
(`src/main.rs`).  The Rust source is shallowly embedded: strings are
`List Char` (the Rust code collects `pattern.chars()` into a `Vec<char>`
and indexes code points), the capture table is a `List (Option (List Char))`,
and the backtracking matcher — which does not terminate on every input —
is given an explicit fuel argument.  `MRes.timeout` marks fuel exhaustion
(the fuel-indexed family of a diverging Rust call is `timeout` for every
fuel), and `MRes.crash` marks a Rust slice-indexing panic.
-/

namespace Putao

/-- Pattern AST node, mirroring the Rust `Node` enum. -/
inductive Node where
  | Lit (c : Char)
  | Digit
  | Word
  | Any
  | Pos (s : List Char)
  | Neg (s : List Char)
  | Opt (inner : Node)
  | Plus (inner : Node)
  | Star (inner : Node)
  | Rep (inner : Node) (count : Nat)
  | Cap (id : Nat) (brs : List (List Node))
  | CapEnd (slot : Nat) (start : Nat)
  | Ref (n : Nat)

/-- Capture table: slot `i` holds the text captured by group `i+1`, mirroring
`Vec<Option<String>>`. -/
abbrev Caps := List (Option (List Char))

/-- Result of a fuel-indexed matcher call.  `timeout` is fuel exhaustion,
`crash` a Rust panic (out-of-range slice), `fail` is Rust `None`, and
`ok e caps` is Rust `Some((e, caps))`. -/
inductive MRes where
  | timeout
  | crash
  | fail
  | ok (e : Nat) (caps : Caps)
deriving DecidableEq

/-- `caps.resize(slot+1, None); caps[slot] = Some s` from the `CapEnd` arm. -/
def setSlot (caps : Caps) (slot : Nat) (s : List Char) : Caps :=
  let nc := if caps.length ≤ slot
            then caps ++ List.replicate (slot + 1 - caps.length) none
            else caps
  nc.set slot (some s)

/-- One pending matcher call: `match_from` itself, the nested `more`
helper, the branch loop of the `Cap` arm, or the count loop of the `Rep`
arm.  Packing the four mutually recursive functions into one request type
keeps the recursion structural in the fuel, so the kernel can evaluate it. -/
inductive Req where
  | m (pos : Nat) (nodes : List Node) (cs : List Char) (caps : Caps)
  | mo (pos : Nat) (inner : Node) (rest : List Node) (cs : List Char) (caps : Caps)
  | tb (brs : List (List Node)) (slot : Nat) (pos : Nat) (tail : List Node)
       (cs : List Char) (caps : Caps)
  | rp (count : Nat) (pos : Nat) (inner : Node) (cs : List Char) (caps : Caps)

/-- Fuel-indexed interpreter for the backtracking matcher `match_from`
(lines 221-357 of `src/main.rs`) together with its nested helper `more`
and the two loops it contains.  Every recursive call spends one unit of
fuel; `timeout` propagates, so a call that diverges in Rust is `timeout`
at every fuel. -/
def step : Nat → Req → MRes
  | 0, _ => .timeout
  | fuel + 1, .m pos nodes cs caps =>
    match nodes with
    | [] => .ok pos caps
    | head :: tail =>
      match head with
      | .Plus inner => step fuel (.mo pos inner tail cs caps)
      | .Star inner =>
        match step fuel (.mo pos inner tail cs caps) with
        | .fail => step fuel (.m pos tail cs caps)
        | r => r
      | .Rep inner count =>
        match step fuel (.rp count pos inner cs caps) with
        | .ok p c => step fuel (.m p tail cs c)
        | r => r
      | .Opt inner =>
        match step fuel (.m pos [inner] cs caps) with
        | .ok p1 c1 =>
          match step fuel (.m p1 tail cs c1) with
          | .fail => step fuel (.m pos tail cs caps)
          | r => r
        | .fail => step fuel (.m pos tail cs caps)
        | r => r
      | .Lit ch =>
        if pos < cs.length ∧ cs.getD pos ' ' = ch
        then step fuel (.m (pos + 1) tail cs caps) else .fail
      | .Digit =>
        if pos < cs.length ∧ (cs.getD pos ' ').isDigit
        then step fuel (.m (pos + 1) tail cs caps) else .fail
      | .Word =>
        if pos < cs.length ∧ ((cs.getD pos ' ').isAlphanum ∨ cs.getD pos ' ' = '_')
        then step fuel (.m (pos + 1) tail cs caps) else .fail
      | .Pos s =>
        if pos < cs.length ∧ cs.getD pos ' ' ∈ s
        then step fuel (.m (pos + 1) tail cs caps) else .fail
      | .Neg s =>
        if pos < cs.length ∧ cs.getD pos ' ' ∉ s
        then step fuel (.m (pos + 1) tail cs caps) else .fail
      | .Any =>
        if pos < cs.length
        then step fuel (.m (pos + 1) tail cs caps) else .fail
      | .Cap id brs => step fuel (.tb brs (id - 1) pos tail cs caps)
      | .CapEnd slot start =>
        if start ≤ pos ∧ pos ≤ cs.length
        then step fuel (.m pos tail cs (setSlot caps slot ((cs.drop start).take (pos - start))))
        else .crash
      | .Ref n =>
        match caps.getD (n - 1) none with
        | some s =>
          if pos + s.length ≤ cs.length ∧ (cs.drop pos).take s.length = s
          then step fuel (.m (pos + s.length) tail cs caps) else .fail
        | none => .fail
  | fuel + 1, .mo pos inner rest cs caps =>
    match step fuel (.m pos [inner] cs caps) with
    | .ok p1 c1 =>
      match step fuel (.mo p1 inner rest cs c1) with
      | .fail => step fuel (.m p1 rest cs c1)
      | r => r
    | r => r
  | fuel + 1, .tb brs slot pos tail cs caps =>
    match brs with
    | [] => .fail
    | b :: bs =>
      match step fuel (.m pos (b ++ .CapEnd slot pos :: tail) cs caps) with
      | .fail => step fuel (.tb bs slot pos tail cs caps)
      | r => r
  | fuel + 1, .rp count pos inner cs caps =>
    match count with
    | 0 => .ok pos caps
    | k + 1 =>
      match step fuel (.m pos [inner] cs caps) with
      | .ok p c => step fuel (.rp k p inner cs c)
      | r => r

theorem step_zero (q : Req) : step 0 q = .timeout := rfl

theorem step_m_nil (f pos : Nat) (cs : List Char) (caps : Caps) :
    step (f + 1) (.m pos [] cs caps) = .ok pos caps := rfl

theorem step_m_plus (f pos : Nat) (inner : Node) (tail : List Node) (cs : List Char)
    (caps : Caps) :
    step (f + 1) (.m pos (.Plus inner :: tail) cs caps) =
      step f (.mo pos inner tail cs caps) := rfl

theorem step_m_star (f pos : Nat) (inner : Node) (tail : List Node) (cs : List Char)
    (caps : Caps) :
    step (f + 1) (.m pos (.Star inner :: tail) cs caps) =
      (match step f (.mo pos inner tail cs caps) with
       | .fail => step f (.m pos tail cs caps)
       | r => r) := rfl

theorem step_m_rep (f pos : Nat) (inner : Node) (count : Nat) (tail : List Node)
    (cs : List Char) (caps : Caps) :
    step (f + 1) (.m pos (.Rep inner count :: tail) cs caps) =
      (match step f (.rp count pos inner cs caps) with
       | .ok p c => step f (.m p tail cs c)
       | r => r) := rfl

theorem step_m_opt (f pos : Nat) (inner : Node) (tail : List Node) (cs : List Char)
    (caps : Caps) :
    step (f + 1) (.m pos (.Opt inner :: tail) cs caps) =
      (match step f (.m pos [inner] cs caps) with
       | .ok p1 c1 =>
         match step f (.m p1 tail cs c1) with
         | .fail => step f (.m pos tail cs caps)
         | r => r
       | .fail => step f (.m pos tail cs caps)
       | r => r) := rfl

theorem step_m_lit (f pos : Nat) (ch : Char) (tail : List Node) (cs : List Char)
    (caps : Caps) :
    step (f + 1) (.m pos (.Lit ch :: tail) cs caps) =
      (if pos < cs.length ∧ cs.getD pos ' ' = ch
       then step f (.m (pos + 1) tail cs caps) else .fail) := rfl

theorem step_m_digit (f pos : Nat) (tail : List Node) (cs : List Char) (caps : Caps) :
    step (f + 1) (.m pos (.Digit :: tail) cs caps) =
      (if pos < cs.length ∧ (cs.getD pos ' ').isDigit
       then step f (.m (pos + 1) tail cs caps) else .fail) := rfl

theorem step_m_word (f pos : Nat) (tail : List Node) (cs : List Char) (caps : Caps) :
    step (f + 1) (.m pos (.Word :: tail) cs caps) =
      (if pos < cs.length ∧ ((cs.getD pos ' ').isAlphanum ∨ cs.getD pos ' ' = '_')
       then step f (.m (pos + 1) tail cs caps) else .fail) := rfl

theorem step_m_any (f pos : Nat) (tail : List Node) (cs : List Char) (caps : Caps) :
    step (f + 1) (.m pos (.Any :: tail) cs caps) =
      (if pos < cs.length
       then step f (.m (pos + 1) tail cs caps) else .fail) := rfl

theorem step_m_posc (f pos : Nat) (s : List Char) (tail : List Node) (cs : List Char)
    (caps : Caps) :
    step (f + 1) (.m pos (.Pos s :: tail) cs caps) =
      (if pos < cs.length ∧ cs.getD pos ' ' ∈ s
       then step f (.m (pos + 1) tail cs caps) else .fail) := rfl

theorem step_m_negc (f pos : Nat) (s : List Char) (tail : List Node) (cs : List Char)
    (caps : Caps) :
    step (f + 1) (.m pos (.Neg s :: tail) cs caps) =
      (if pos < cs.length ∧ cs.getD pos ' ' ∉ s
       then step f (.m (pos + 1) tail cs caps) else .fail) := rfl

theorem step_m_cap (f pos id : Nat) (brs : List (List Node)) (tail : List Node)
    (cs : List Char) (caps : Caps) :
    step (f + 1) (.m pos (.Cap id brs :: tail) cs caps) =
      step f (.tb brs (id - 1) pos tail cs caps) := rfl

theorem step_m_capend (f pos slot start : Nat) (tail : List Node) (cs : List Char)
    (caps : Caps) :
    step (f + 1) (.m pos (.CapEnd slot start :: tail) cs caps) =
      (if start ≤ pos ∧ pos ≤ cs.length
       then step f (.m pos tail cs (setSlot caps slot ((cs.drop start).take (pos - start))))
       else .crash) := rfl

theorem step_m_ref (f pos n : Nat) (tail : List Node) (cs : List Char) (caps : Caps) :
    step (f + 1) (.m pos (.Ref n :: tail) cs caps) =
      (match caps.getD (n - 1) none with
       | some s =>
         if pos + s.length ≤ cs.length ∧ (cs.drop pos).take s.length = s
         then step f (.m (pos + s.length) tail cs caps) else .fail
       | none => .fail) := rfl

theorem step_mo_eq (f pos : Nat) (inner : Node) (rest : List Node) (cs : List Char)
    (caps : Caps) :
    step (f + 1) (.mo pos inner rest cs caps) =
      (match step f (.m pos [inner] cs caps) with
       | .ok p1 c1 =>
         match step f (.mo p1 inner rest cs c1) with
         | .fail => step f (.m p1 rest cs c1)
         | r => r
       | r => r) := rfl

theorem step_tb_nil (f slot pos : Nat) (tail : List Node) (cs : List Char) (caps : Caps) :
    step (f + 1) (.tb [] slot pos tail cs caps) = .fail := rfl

theorem step_tb_cons (f slot pos : Nat) (b : List Node) (bs : List (List Node))
    (tail : List Node) (cs : List Char) (caps : Caps) :
    step (f + 1) (.tb (b :: bs) slot pos tail cs caps) =
      (match step f (.m pos (b ++ .CapEnd slot pos :: tail) cs caps) with
       | .fail => step f (.tb bs slot pos tail cs caps)
       | r => r) := rfl

theorem step_rp_zero (f pos : Nat) (inner : Node) (cs : List Char) (caps : Caps) :
    step (f + 1) (.rp 0 pos inner cs caps) = .ok pos caps := rfl

theorem step_rp_succ (f k pos : Nat) (inner : Node) (cs : List Char) (caps : Caps) :
    step (f + 1) (.rp (k + 1) pos inner cs caps) =
      (match step f (.m pos [inner] cs caps) with
       | .ok p c => step f (.rp k p inner cs c)
       | r => r) := rfl

/-- `match_from(pos, nodes, cs, caps)` with fuel. -/
def match_from (fuel pos : Nat) (nodes : List Node) (cs : List Char) (caps : Caps) : MRes :=
  step fuel (.m pos nodes cs caps)

/-- The nested `more` helper of `match_from`, with fuel. -/
def more (fuel pos : Nat) (inner : Node) (rest : List Node) (cs : List Char) (caps : Caps) : MRes :=
  step fuel (.mo pos inner rest cs caps)

/-- The group-body collection loop of the `'('` arm of `elems`: consume
characters tracking nesting depth until the `')'` that closes the group
(which is consumed but not kept) or until the end of the pattern, and
return the collected body together with what remains after it. -/
def collectBody : List Char → Nat → List Char × List Char
  | [], _ => ([], [])
  | ch :: rest, d =>
    if ch = '(' then
      let br := collectBody rest (d + 1)
      (ch :: br.1, br.2)
    else if ch = ')' then
      if d = 0 then ([], rest)
      else
        let br := collectBody rest (d - 1)
        (ch :: br.1, br.2)
    else
      let br := collectBody rest d
      (ch :: br.1, br.2)

theorem collectBody_fst_length_le : ∀ (cs : List Char) (d : Nat),
    (collectBody cs d).1.length ≤ cs.length := by
  intro cs
  induction cs with
  | nil => intro d; simp [collectBody]
  | cons ch rest ih =>
    intro d
    simp only [collectBody]
    split
    · simpa using Nat.succ_le_succ (ih (d + 1))
    · split
      · split
        · simp
        · simpa using Nat.succ_le_succ (ih (d - 1))
      · simpa using Nat.succ_le_succ (ih d)

theorem collectBody_snd_length_le : ∀ (cs : List Char) (d : Nat),
    (collectBody cs d).2.length ≤ cs.length := by
  intro cs
  induction cs with
  | nil => intro d; simp [collectBody]
  | cons ch rest ih =>
    intro d
    simp only [collectBody]
    split
    · exact Nat.le_succ_of_le (ih (d + 1))
    · split
      · split
        · simp
        · exact Nat.le_succ_of_le (ih (d - 1))
      · exact Nat.le_succ_of_le (ih d)

/-- Digit string to number, as `num_str.parse::<usize>()` computes it. -/
def digitsToNat (ds : List Char) : Nat :=
  ds.foldl (fun a c => a * 10 + (c.toNat - 48)) 0

/-- The postfix-quantifier check performed after every atom: `+`, `?`, `*`
or `{k}` wraps the atom; `{` with no digits-then-`}` is a parse error
(`num_str.parse()?` also errors when the digit string is empty). -/
def applyQuant (n : Node) (r : List Char) : Except String (Node × List Char) :=
  match r with
  | [] => .ok (n, [])
  | c :: rest =>
    if c = '+' then .ok (.Plus n, rest)
    else if c = '?' then .ok (.Opt n, rest)
    else if c = '*' then .ok (.Star n, rest)
    else if c = '{' then
      let ds := rest.takeWhile Char.isDigit
      match rest.dropWhile Char.isDigit with
      | c2 :: r3 =>
        if c2 = '}' then
          if ds.isEmpty then .error ("cannot parse integer from empty string")
          else .ok (.Rep n (digitsToNat ds), r3)
        else .error ("invalid repretition quantifier")
      | [] => .error ("invalid repretition quantifier")
    else .ok (n, c :: rest)

theorem applyQuant_length_le (n : Node) (r : List Char) (n2 : Node) (r2 : List Char)
    (h : applyQuant n r = .ok (n2, r2)) : r2.length ≤ r.length := by
  unfold applyQuant at h
  match r with
  | [] =>
    simp at h
    obtain ⟨h1, h2⟩ := h
    subst h2
    exact Nat.le_refl _
  | c :: rest =>
    simp only [] at h
    split at h
    · simp at h; obtain ⟨h1, h2⟩ := h; subst h2; simp only [List.length_cons]; omega
    · split at h
      · simp at h; obtain ⟨h1, h2⟩ := h; subst h2; simp only [List.length_cons]; omega
      · split at h
        · simp at h; obtain ⟨h1, h2⟩ := h; subst h2; simp only [List.length_cons]; omega
        · split at h
          · split at h
            next r3 heq =>
              split at h
              · split at h
                · simp at h
                · simp at h
                  obtain ⟨h1, h2⟩ := h
                  subst h2
                  have h5 : (rest.dropWhile Char.isDigit).length ≤ rest.length :=
                    (List.dropWhile_sublist Char.isDigit).length_le
                  rw [heq] at h5
                  simp only [List.length_cons] at h5 ⊢
                  omega
              · simp at h
            next => simp at h
          · simp at h
            obtain ⟨h1, h2⟩ := h
            subst h2
            exact Nat.le_refl _

/-- The `'|'` splitting loop of `branches`: cut the body at every `|`
occurring at raw parenthesis depth 0.  Depth is an `i32` in Rust. -/
def splitTopAux : List Char → Int → List Char → List (List Char)
  | [], _, cur => [cur.reverse]
  | c :: rest, d, cur =>
    if d = 0 ∧ c = '|' then cur.reverse :: splitTopAux rest d []
    else
      splitTopAux rest (if c = '(' then d + 1 else if c = ')' then d - 1 else d) (c :: cur)

/-- Splits a group body into top-level alternation segments. -/
def splitTop (cs : List Char) : List (List Char) := splitTopAux cs 0 []

theorem splitTopAux_length_le : ∀ (cs : List Char) (d : Int) (cur : List Char),
    ∀ seg ∈ splitTopAux cs d cur, seg.length ≤ cs.length + cur.length := by
  intro cs
  induction cs with
  | nil =>
    intro d cur seg hseg
    simp [splitTopAux] at hseg
    simp [hseg]
  | cons c rest ih =>
    intro d cur seg hseg
    simp only [splitTopAux] at hseg
    split at hseg
    · rcases List.mem_cons.mp hseg with h | h
      · simp [h]
      · have := ih d [] seg h
        simp at this
        simp
        omega
    · have := ih _ (c :: cur) seg hseg
      simp at this ⊢
      omega

theorem splitTop_length_le (cs : List Char) :
    ∀ seg ∈ splitTop cs, seg.length ≤ cs.length := by
  intro seg hseg
  have := splitTopAux_length_le cs 0 [] seg hseg
  simpa using this

/-- Largest segment length, the termination measure for the branch list. -/
def maxLen (segs : List (List Char)) : Nat :=
  (segs.map List.length).foldr Nat.max 0

theorem maxLen_cons (s : List Char) (rest : List (List Char)) :
    maxLen (s :: rest) = Nat.max s.length (maxLen rest) := rfl

theorem le_maxLen : ∀ {segs : List (List Char)} {seg : List Char},
    seg ∈ segs → seg.length ≤ maxLen segs := by
  intro segs
  induction segs with
  | nil => intro seg h; cases h
  | cons s rest ih =>
    intro seg h
    rw [maxLen_cons]
    rcases List.mem_cons.mp h with h1 | h1
    · subst h1; exact Nat.le_max_left _ _
    · exact Nat.le_trans (ih h1) (Nat.le_max_right _ _)

theorem maxLen_le : ∀ {segs : List (List Char)} {n : Nat},
    (∀ seg ∈ segs, seg.length ≤ n) → maxLen segs ≤ n := by
  intro segs
  induction segs with
  | nil => intro n _; exact Nat.zero_le n
  | cons s rest ih =>
    intro n h
    rw [maxLen_cons]
    exact Nat.max_le.mpr ⟨h s (List.mem_cons_self _ _),
      ih (fun seg hs => h seg (List.mem_cons_of_mem _ hs))⟩

/-- Either a strict drop in the first component or equality with a strict
drop in the second: the two ways a lexicographic Nat pair decreases. -/
theorem lexPair_lt {a b c d : Nat} (h : a < c ∨ (a = c ∧ b < d)) :
    Prod.Lex (· < ·) (· < ·) (a, b) (c, d) := by
  rcases h with h | ⟨h1, h2⟩
  · exact Prod.Lex.left _ _ h
  · subst h1
    exact Prod.Lex.right _ h2

mutual

/-- `elems` (lines 45-136 of `src/main.rs`): parse a sequence of nodes from
the character list, threading the group-id counter, until the end of the
input or a `')'` at this level; the unconsumed remainder is also returned
(the Rust cursor stops at the `')'`). -/
def elems : List Char → Nat → Except String (List Node × List Char × Nat)
  | [], gid => .ok ([], [], gid)
  | c :: rest, gid =>
    if c = ')' then .ok ([], c :: rest, gid)
    else if c = '\\' then
      match rest with
      | [] => .error ("invalid escape")
      | e :: rest2 =>
        cont (if e = 'd' then .Digit
              else if e = 'w' then .Word
              else if '1' ≤ e ∧ e ≤ '9' then .Ref (e.toNat - 48)
              else .Lit e) rest2 gid
    else if c = '[' then
      let neg := match rest with | c2 :: _ => c2 == '^' | [] => false
      let rest1 := if neg then rest.tail else rest
      let mem := rest1.takeWhile (fun ch => ch ≠ ']')
      match hcl : rest1.dropWhile (fun ch => ch ≠ ']') with
      | c2 :: rest3 =>
        if c2 = ']' then cont (if neg then .Neg mem else .Pos mem) rest3 gid
        else .error ("unclosed class")
      | [] => .error ("unclosed class")
    else if c = '(' then
      let bd := collectBody rest 0
      match branchesGo (splitTop bd.1) (gid + 1) with
      | .error msg => .error msg
      | .ok (brs, gid2) => cont (.Cap (gid + 1) brs) bd.2 gid2
    else if c = '.' then cont .Any rest gid
    else cont (.Lit c) rest gid
termination_by cs _ => (cs.length, 1)
decreasing_by
  · apply lexPair_lt
    left
    simp
  · apply lexPair_lt
    have h1 : (rest1.dropWhile (fun ch => ch ≠ ']')).length ≤ rest1.length :=
      (List.dropWhile_sublist _).length_le
    rw [hcl] at h1
    have h2 : rest1.length ≤ rest.length := by
      simp only [rest1]
      split
      · exact (List.length_tail _) ▸ Nat.sub_le _ _
      · exact Nat.le_refl _
    left
    simp at h1 ⊢
    omega
  · apply lexPair_lt
    left
    have h1 : maxLen (splitTop (collectBody rest 0).1) ≤ (collectBody rest 0).1.length :=
      maxLen_le (splitTop_length_le _)
    have h2 := collectBody_fst_length_le rest 0
    simp
    omega
  · apply lexPair_lt
    have h2 := collectBody_snd_length_le rest 0
    simp
    omega
  · apply lexPair_lt
    simp
  · apply lexPair_lt
    simp

/-- The shared atom continuation: apply the postfix quantifier and keep
parsing the remainder, prepending the finished node. -/
def cont (n : Node) (r : List Char) (gid : Nat) :
    Except String (List Node × List Char × Nat) :=
  match h : applyQuant n r with
  | .error msg => .error msg
  | .ok (n2, r2) =>
    match elems r2 gid with
    | .error msg => .error msg
    | .ok (ns, leftover, gid2) => .ok (n2 :: ns, leftover, gid2)
termination_by (r.length + 1, 0)
decreasing_by
  apply lexPair_lt
  left
  have h1 := applyQuant_length_le n r n2 r2 h
  omega

/-- `branches` applied to the already-split segments: parse each top-level
alternation segment with `elems`, threading the group counter.  The
leftover of each segment parse is discarded, as in the Rust code. -/
def branchesGo : List (List Char) → Nat → Except String (List (List Node) × Nat)
  | [], gid => .ok ([], gid)
  | seg :: segs, gid =>
    match elems seg gid with
    | .error msg => .error msg
    | .ok (ns, _leftover, gid2) =>
      match branchesGo segs gid2 with
      | .error msg => .error msg
      | .ok (out, gid3) => .ok (ns :: out, gid3)
termination_by segs _ => (maxLen segs, segs.length + 2)
decreasing_by
  · apply lexPair_lt
    have h1 : seg.length ≤ maxLen (seg :: segs) := le_maxLen (List.mem_cons_self _ _)
    simp
    omega
  · apply lexPair_lt
    have h1 : maxLen segs ≤ maxLen (seg :: segs) := by
      apply maxLen_le
      intro s hs
      exact le_maxLen (List.mem_cons_of_mem _ hs)
    simp
    omega

end

/-- `parse` (lines 27-42 of `src/main.rs`): strip a leading `^` and a
trailing `$` not preceded by `\`, then run `elems` from the start with the
group counter at 0.  The leftover of `elems` is discarded: a stray
top-level `')'` silently truncates the pattern. -/
def stripCaret (l : List Char) : Bool × List Char :=
  match l with
  | c :: rest => if c = '^' then (true, rest) else (false, c :: rest)
  | [] => (false, [])

/-- The `pat.ends_with('$') && !pat.ends_with("\\$")` check and strip. -/
def stripDollar (l : List Char) : Bool × List Char :=
  match l.reverse with
  | c :: r =>
    if c = '$' then
      match r with
      | c2 :: _ => if c2 = '\\' then (false, l) else (true, r.reverse)
      | [] => (true, r.reverse)
    else (false, l)
  | [] => (false, l)

def parse (pattern : String) : Except String (List Node × Bool × Bool) :=
  let sp := stripCaret pattern.data
  let ep := stripDollar sp.2
  match elems ep.2 0 with
  | .error msg => .error msg
  | .ok (ns, _leftover, _gid) => .ok (ns, sp.1, ep.1)

/-- Result of the fuel-indexed `is_match`: a parse error, fuel exhaustion,
a Rust panic, or the boolean the Rust function returns. -/
inductive IsRes where
  | perr
  | timeout
  | crash
  | found (b : Bool)
deriving DecidableEq

/-- The start-offset loop of `is_match`: `starts.iter().any(...)`, trying
offsets in order with an empty capture table; a match result is accepted
when the end anchor is off or the end offset equals the input length. -/
def tryStarts (fuel : Nat) : List Nat → List Node → List Char → Bool → IsRes
  | [], _, _, _ => .found false
  | st :: rest, ns, cs, endA =>
    match match_from fuel st ns cs [] with
    | .timeout => .timeout
    | .crash => .crash
    | .fail => tryStarts fuel rest ns cs endA
    | .ok e _ =>
      if endA then
        if e = cs.length then .found true else tryStarts fuel rest ns cs endA
      else .found true

/-- `is_match` (lines 170-180 of `src/main.rs`): parse, then try every
admissible start offset in ascending order — only offset 0 when
start-anchored, else `0..=len(input)`. -/
def is_match (fuel : Nat) (input pat : String) : IsRes :=
  match parse pat with
  | .error _ => .perr
  | .ok (ns, startA, endA) =>
    let cs := input.data
    let starts := if startA then [0] else List.range (cs.length + 1)
    tryStarts fuel starts ns cs endA

/-- `content.split_inclusive('\n')`: split after every newline, each
segment keeping its terminator; a final piece without `\n` is kept as is,
and the empty string yields no segments. -/
def splitInc : List Char → List (List Char)
  | [] => []
  | c :: rest =>
    if c = '\n' then [c] :: splitInc rest
    else
      match splitInc rest with
      | [] => [[c]]
      | s :: ss => (c :: s) :: ss

/-- `seg.trim_end_matches(|c| c == '\n' || c == '\r')`: remove every
trailing newline or carriage-return character. -/
def dropLineEnds (cs : List Char) : List Char :=
  (cs.reverse.dropWhile (fun c => c == '\n' || c == '\r')).reverse

/-- `print_with_prefix` (lines 183-190 of `src/main.rs`), with the printed
bytes modelled as the returned string: a segment that already ends in a
newline is emitted verbatim (after the optional `label:`); otherwise a
newline is appended (`println!` / the explicit `\n`). -/
def print_with_pfx (pfx : Option String) (seg : List Char) : String :=
  match pfx with
  | some p =>
    if seg.getLast? = some '\n' then p ++ ":" ++ String.mk seg
    else p ++ ":" ++ String.mk seg ++ "\n"
  | none =>
    if seg.getLast? = some '\n' then String.mk seg
    else String.mk seg ++ "\n"

/-- Result of the fuel-indexed `grep_content`: the emitted lines and the
"any match" flag, or the propagated failure mode. -/
inductive GRes where
  | perr
  | timeout
  | crash
  | ok (outs : List String) (any : Bool)
deriving DecidableEq

/-- The per-segment loop of `grep_content`: match each trimmed line and
collect the formatted output of the matching segments, left to right. -/
def grepGo (fuel : Nat) (pat : String) (pfx : Option String) : List (List Char) → GRes
  | [] => .ok [] false
  | seg :: rest =>
    match is_match fuel (String.mk (dropLineEnds seg)) pat with
    | .perr => .perr
    | .timeout => .timeout
    | .crash => .crash
    | .found b =>
      match grepGo fuel pat pfx rest with
      | .ok outs any =>
        if b then .ok (print_with_pfx pfx seg :: outs) true
        else .ok outs any
      | r => r

/-- `grep_content` (lines 193-213 of `src/main.rs`): scan the inclusive
newline segments; afterwards, if the segments did not cover the whole
content (dead in practice, since `split_inclusive` is exhaustive), scan
the remaining bytes with only `\r` trimmed. -/
def grep_content (fuel : Nat) (content pat : String) (pfx : Option String) : GRes :=
  let segs := splitInc content.data
  let consumed := (segs.map List.length).sum
  match grepGo fuel pat pfx segs with
  | .ok outs any =>
    if consumed < content.data.length then
      let seg := content.data.drop consumed
      let ln := (seg.reverse.dropWhile (fun c => c == '\r')).reverse
      match is_match fuel (String.mk ln) pat with
      | .perr => .perr
      | .timeout => .timeout
      | .crash => .crash
      | .found b =>
        if b then .ok (outs ++ [print_with_pfx pfx seg]) true
        else .ok outs any
    else .ok outs any
  | r => r

/-- The current input position of a pending matcher call. -/
def reqPos : Req → Nat
  | .m pos _ _ _ => pos
  | .mo pos _ _ _ _ => pos
  | .tb _ _ pos _ _ _ => pos
  | .rp _ pos _ _ _ => pos

/-- The input of a pending matcher call. -/
def reqCs : Req → List Char
  | .m _ _ cs _ => cs
  | .mo _ _ _ cs _ => cs
  | .tb _ _ _ _ cs _ => cs
  | .rp _ _ _ cs _ => cs

/-- A successful matcher call never moves the position backwards, and never
moves it past the end of the input. -/
theorem step_ok_le : ∀ (fuel : Nat) (q : Req) (e : Nat) (cp : Caps),
    step fuel q = .ok e cp →
    reqPos q ≤ e ∧ (reqPos q ≤ (reqCs q).length → e ≤ (reqCs q).length) := by
  intro fuel
  induction fuel with
  | zero => intro q e cp h; simp [step] at h
  | succ f ih =>
    intro q e cp h
    match q with
    | .m pos nodes cs caps =>
      simp only [reqPos, reqCs]
      match nodes with
      | [] =>
        simp only [step] at h
        simp at h
        obtain ⟨h1, h2⟩ := h
        subst h1
        exact ⟨Nat.le_refl _, fun hh => hh⟩
      | head :: tail =>
        match head with
        | .Plus inner =>
          simp only [step] at h
          simpa [reqPos, reqCs] using ih (.mo pos inner tail cs caps) e cp h
        | .Star inner =>
          simp only [step] at h
          cases hsub : step f (.mo pos inner tail cs caps) with
          | fail =>
            rw [hsub] at h; dsimp only at h
            simpa [reqPos, reqCs] using ih (.m pos tail cs caps) e cp h
          | ok e1 c1 =>
            rw [hsub] at h; dsimp only at h
            simp at h
            obtain ⟨h1, h2⟩ := h
            subst h1
            simpa [reqPos, reqCs] using ih _ _ _ hsub
          | timeout => rw [hsub] at h; dsimp only at h; simp at h
          | crash => rw [hsub] at h; dsimp only at h; simp at h
        | .Rep inner count =>
          simp only [step] at h
          cases hsub : step f (.rp count pos inner cs caps) with
          | ok p c2 =>
            rw [hsub] at h; dsimp only at h
            have i1 := ih _ _ _ hsub
            have i2 := ih (.m p tail cs c2) e cp h
            simp [reqPos, reqCs] at i1 i2
            exact ⟨Nat.le_trans i1.1 i2.1, fun hh => i2.2 (i1.2 hh)⟩
          | fail => rw [hsub] at h; dsimp only at h; simp at h
          | timeout => rw [hsub] at h; dsimp only at h; simp at h
          | crash => rw [hsub] at h; dsimp only at h; simp at h
        | .Opt inner =>
          simp only [step] at h
          cases hsub : step f (.m pos [inner] cs caps) with
          | ok p1 c1 =>
            rw [hsub] at h; dsimp only at h
            have i1 := ih _ _ _ hsub
            simp [reqPos, reqCs] at i1
            cases hsub2 : step f (.m p1 tail cs c1) with
            | fail =>
              rw [hsub2] at h; dsimp only at h
              simpa [reqPos, reqCs] using ih (.m pos tail cs caps) e cp h
            | ok e2 c2 =>
              rw [hsub2] at h; dsimp only at h
              simp at h
              obtain ⟨h1, h2⟩ := h
              subst h1
              have i2 := ih _ _ _ hsub2
              simp [reqPos, reqCs] at i2
              exact ⟨Nat.le_trans i1.1 i2.1, fun hh => i2.2 (i1.2 hh)⟩
            | timeout => rw [hsub2] at h; dsimp only at h; simp at h
            | crash => rw [hsub2] at h; dsimp only at h; simp at h
          | fail =>
            rw [hsub] at h; dsimp only at h
            simpa [reqPos, reqCs] using ih (.m pos tail cs caps) e cp h
          | timeout => rw [hsub] at h; dsimp only at h; simp at h
          | crash => rw [hsub] at h; dsimp only at h; simp at h
        | .Lit ch =>
          simp only [step] at h
          split at h
          · next hc =>
            have := ih (.m (pos + 1) tail cs caps) e cp h
            simp [reqPos, reqCs] at this
            exact ⟨by omega, fun _ => this.2 (by omega)⟩
          · simp at h
        | .Digit =>
          simp only [step] at h
          split at h
          · next hc =>
            have := ih (.m (pos + 1) tail cs caps) e cp h
            simp [reqPos, reqCs] at this
            exact ⟨by omega, fun _ => this.2 (by omega)⟩
          · simp at h
        | .Word =>
          simp only [step] at h
          split at h
          · next hc =>
            have := ih (.m (pos + 1) tail cs caps) e cp h
            simp [reqPos, reqCs] at this
            exact ⟨by omega, fun _ => this.2 (by omega)⟩
          · simp at h
        | .Any =>
          simp only [step] at h
          split at h
          · next hc =>
            have := ih (.m (pos + 1) tail cs caps) e cp h
            simp [reqPos, reqCs] at this
            exact ⟨by omega, fun _ => this.2 (by omega)⟩
          · simp at h
        | .Pos s =>
          simp only [step] at h
          split at h
          · next hc =>
            have := ih (.m (pos + 1) tail cs caps) e cp h
            simp [reqPos, reqCs] at this
            exact ⟨by omega, fun _ => this.2 (by omega)⟩
          · simp at h
        | .Neg s =>
          simp only [step] at h
          split at h
          · next hc =>
            have := ih (.m (pos + 1) tail cs caps) e cp h
            simp [reqPos, reqCs] at this
            exact ⟨by omega, fun _ => this.2 (by omega)⟩
          · simp at h
        | .Cap id brs =>
          simp only [step] at h
          simpa [reqPos, reqCs] using ih (.tb brs (id - 1) pos tail cs caps) e cp h
        | .CapEnd slot start =>
          simp only [step] at h
          split at h
          · next hc =>
            simpa [reqPos, reqCs] using
              ih (.m pos tail cs (setSlot caps slot ((cs.drop start).take (pos - start)))) e cp h
          · simp at h
        | .Ref n =>
          simp only [step] at h
          cases hg : caps.getD (n - 1) none with
          | some s =>
            rw [hg] at h; dsimp only at h
            split at h
            · next hc =>
              have := ih (.m (pos + s.length) tail cs caps) e cp h
              simp [reqPos, reqCs] at this
              exact ⟨by omega, fun _ => this.2 (by omega)⟩
            · simp at h
          | none => rw [hg] at h; dsimp only at h; simp at h
    | .mo pos inner rest cs caps =>
      simp only [reqPos, reqCs]
      simp only [step] at h
      cases hsub : step f (.m pos [inner] cs caps) with
      | ok p1 c1 =>
        rw [hsub] at h; dsimp only at h
        have i1 := ih _ _ _ hsub
        simp [reqPos, reqCs] at i1
        cases hsub2 : step f (.mo p1 inner rest cs c1) with
        | fail =>
          rw [hsub2] at h; dsimp only at h
          have i2 := ih (.m p1 rest cs c1) e cp h
          simp [reqPos, reqCs] at i2
          exact ⟨Nat.le_trans i1.1 i2.1, fun hh => i2.2 (i1.2 hh)⟩
        | ok e2 c2 =>
          rw [hsub2] at h; dsimp only at h
          simp at h
          obtain ⟨h1, h2⟩ := h
          subst h1
          have i2 := ih _ _ _ hsub2
          simp [reqPos, reqCs] at i2
          exact ⟨Nat.le_trans i1.1 i2.1, fun hh => i2.2 (i1.2 hh)⟩
        | timeout => rw [hsub2] at h; dsimp only at h; simp at h
        | crash => rw [hsub2] at h; dsimp only at h; simp at h
      | fail => rw [hsub] at h; dsimp only at h; simp at h
      | timeout => rw [hsub] at h; dsimp only at h; simp at h
      | crash => rw [hsub] at h; dsimp only at h; simp at h
    | .tb brs slot pos tail cs caps =>
      simp only [reqPos, reqCs]
      match brs with
      | [] => simp [step] at h
      | b :: bs =>
        simp only [step] at h
        cases hsub : step f (.m pos (b ++ .CapEnd slot pos :: tail) cs caps) with
        | fail =>
          rw [hsub] at h; dsimp only at h
          simpa [reqPos, reqCs] using ih (.tb bs slot pos tail cs caps) e cp h
        | ok e1 c1 =>
          rw [hsub] at h; dsimp only at h
          simp at h
          obtain ⟨h1, h2⟩ := h
          subst h1
          simpa [reqPos, reqCs] using ih _ _ _ hsub
        | timeout => rw [hsub] at h; dsimp only at h; simp at h
        | crash => rw [hsub] at h; dsimp only at h; simp at h
    | .rp count pos inner cs caps =>
      simp only [reqPos, reqCs]
      match count with
      | 0 =>
        simp only [step] at h
        simp at h
        obtain ⟨h1, h2⟩ := h
        subst h1
        exact ⟨Nat.le_refl _, fun hh => hh⟩
      | k + 1 =>
        simp only [step] at h
        cases hsub : step f (.m pos [inner] cs caps) with
        | ok p c2 =>
          rw [hsub] at h; dsimp only at h
          have i1 := ih _ _ _ hsub
          have i2 := ih (.rp k p inner cs c2) e cp h
          simp [reqPos, reqCs] at i1 i2
          exact ⟨Nat.le_trans i1.1 i2.1, fun hh => i2.2 (i1.2 hh)⟩
        | fail => rw [hsub] at h; dsimp only at h; simp at h
        | timeout => rw [hsub] at h; dsimp only at h; simp at h
        | crash => rw [hsub] at h; dsimp only at h; simp at h

/-- Fuel is only an observation bound: a call that completes with some
fuel returns the same result with one unit more. -/
theorem step_mono_succ : ∀ (fuel : Nat) (q : Req), step fuel q ≠ .timeout →
    step (fuel + 1) q = step fuel q := by
  intro fuel
  induction fuel with
  | zero => intro q h; exact absurd rfl h
  | succ f ih =>
    intro q h
    match q with
    | .m pos nodes cs caps =>
      match nodes with
      | [] => rw [step_m_nil, step_m_nil]
      | head :: tail =>
        match head with
        | .Plus inner =>
          rw [step_m_plus] at h ⊢
          rw [step_m_plus]
          exact ih _ h
        | .Star inner =>
          rw [step_m_star] at h ⊢
          rw [step_m_star]
          cases hsub : step f (.mo pos inner tail cs caps) with
          | timeout => rw [hsub] at h; dsimp only at h; exact absurd rfl h
          | fail =>
            rw [(ih (.mo pos inner tail cs caps) (by simp [hsub])).trans hsub]
            dsimp only
            rw [hsub] at h; dsimp only at h
            exact ih _ h
          | ok e1 c1 =>
            rw [(ih (.mo pos inner tail cs caps) (by simp [hsub])).trans hsub]
          | crash =>
            rw [(ih (.mo pos inner tail cs caps) (by simp [hsub])).trans hsub]
        | .Rep inner count =>
          rw [step_m_rep] at h ⊢
          rw [step_m_rep]
          cases hsub : step f (.rp count pos inner cs caps) with
          | timeout => rw [hsub] at h; dsimp only at h; exact absurd rfl h
          | ok p c2 =>
            rw [(ih (.rp count pos inner cs caps) (by simp [hsub])).trans hsub]
            dsimp only
            rw [hsub] at h; dsimp only at h
            exact ih _ h
          | fail =>
            rw [(ih (.rp count pos inner cs caps) (by simp [hsub])).trans hsub]
          | crash =>
            rw [(ih (.rp count pos inner cs caps) (by simp [hsub])).trans hsub]
        | .Opt inner =>
          rw [step_m_opt] at h ⊢
          rw [step_m_opt]
          cases hsub : step f (.m pos [inner] cs caps) with
          | timeout => rw [hsub] at h; dsimp only at h; exact absurd rfl h
          | ok p1 c1 =>
            rw [(ih (.m pos [inner] cs caps) (by simp [hsub])).trans hsub]
            dsimp only
            rw [hsub] at h; dsimp only at h
            cases hsub2 : step f (.m p1 tail cs c1) with
            | timeout => rw [hsub2] at h; dsimp only at h; exact absurd rfl h
            | fail =>
              rw [(ih (.m p1 tail cs c1) (by simp [hsub2])).trans hsub2]
              dsimp only
              rw [hsub2] at h; dsimp only at h
              exact ih _ h
            | ok e2 c2 =>
              rw [(ih (.m p1 tail cs c1) (by simp [hsub2])).trans hsub2]
            | crash =>
              rw [(ih (.m p1 tail cs c1) (by simp [hsub2])).trans hsub2]
          | fail =>
            rw [(ih (.m pos [inner] cs caps) (by simp [hsub])).trans hsub]
            dsimp only
            rw [hsub] at h; dsimp only at h
            exact ih _ h
          | crash =>
            rw [(ih (.m pos [inner] cs caps) (by simp [hsub])).trans hsub]
        | .Lit ch =>
          rw [step_m_lit] at h ⊢
          rw [step_m_lit]
          split
          next hc =>
            rw [if_pos hc] at h
            exact ih _ h
          next => rfl
        | .Digit =>
          rw [step_m_digit] at h ⊢
          rw [step_m_digit]
          split
          next hc =>
            rw [if_pos hc] at h
            exact ih _ h
          next => rfl
        | .Word =>
          rw [step_m_word] at h ⊢
          rw [step_m_word]
          split
          next hc =>
            rw [if_pos hc] at h
            exact ih _ h
          next => rfl
        | .Any =>
          rw [step_m_any] at h ⊢
          rw [step_m_any]
          split
          next hc =>
            rw [if_pos hc] at h
            exact ih _ h
          next => rfl
        | .Pos s =>
          rw [step_m_posc] at h ⊢
          rw [step_m_posc]
          split
          next hc =>
            rw [if_pos hc] at h
            exact ih _ h
          next => rfl
        | .Neg s =>
          rw [step_m_negc] at h ⊢
          rw [step_m_negc]
          split
          next hc =>
            rw [if_pos hc] at h
            exact ih _ h
          next => rfl
        | .Cap id brs =>
          rw [step_m_cap] at h ⊢
          rw [step_m_cap]
          exact ih _ h
        | .CapEnd slot start =>
          rw [step_m_capend] at h ⊢
          rw [step_m_capend]
          split
          next hc =>
            rw [if_pos hc] at h
            exact ih _ h
          next => rfl
        | .Ref n =>
          rw [step_m_ref] at h ⊢
          rw [step_m_ref]
          cases hg : caps.getD (n - 1) none with
          | some s =>
            dsimp only at h ⊢
            split
            next hc =>
              rw [hg] at h
              dsimp only at h
              rw [if_pos hc] at h
              exact ih _ h
            next => rfl
          | none => rfl
    | .mo pos inner rest cs caps =>
      rw [step_mo_eq] at h ⊢
      rw [step_mo_eq]
      cases hsub : step f (.m pos [inner] cs caps) with
      | timeout => rw [hsub] at h; dsimp only at h; exact absurd rfl h
      | ok p1 c1 =>
        rw [(ih (.m pos [inner] cs caps) (by simp [hsub])).trans hsub]
        dsimp only
        rw [hsub] at h; dsimp only at h
        cases hsub2 : step f (.mo p1 inner rest cs c1) with
        | timeout => rw [hsub2] at h; dsimp only at h; exact absurd rfl h
        | fail =>
          rw [(ih (.mo p1 inner rest cs c1) (by simp [hsub2])).trans hsub2]
          dsimp only
          rw [hsub2] at h; dsimp only at h
          exact ih _ h
        | ok e2 c2 =>
          rw [(ih (.mo p1 inner rest cs c1) (by simp [hsub2])).trans hsub2]
        | crash =>
          rw [(ih (.mo p1 inner rest cs c1) (by simp [hsub2])).trans hsub2]
      | fail =>
        rw [(ih (.m pos [inner] cs caps) (by simp [hsub])).trans hsub]
      | crash =>
        rw [(ih (.m pos [inner] cs caps) (by simp [hsub])).trans hsub]
    | .tb brs slot pos tail cs caps =>
      match brs with
      | [] => rw [step_tb_nil, step_tb_nil]
      | b :: bs =>
        rw [step_tb_cons] at h ⊢
        rw [step_tb_cons]
        cases hsub : step f (.m pos (b ++ .CapEnd slot pos :: tail) cs caps) with
        | timeout => rw [hsub] at h; dsimp only at h; exact absurd rfl h
        | fail =>
          rw [(ih (.m pos (b ++ .CapEnd slot pos :: tail) cs caps) (by simp [hsub])).trans hsub]
          dsimp only
          rw [hsub] at h; dsimp only at h
          exact ih _ h
        | ok e1 c1 =>
          rw [(ih (.m pos (b ++ .CapEnd slot pos :: tail) cs caps) (by simp [hsub])).trans hsub]
        | crash =>
          rw [(ih (.m pos (b ++ .CapEnd slot pos :: tail) cs caps) (by simp [hsub])).trans hsub]
    | .rp count pos inner cs caps =>
      match count with
      | 0 => rw [step_rp_zero, step_rp_zero]
      | k + 1 =>
        rw [step_rp_succ] at h ⊢
        rw [step_rp_succ]
        cases hsub : step f (.m pos [inner] cs caps) with
        | timeout => rw [hsub] at h; dsimp only at h; exact absurd rfl h
        | ok p c2 =>
          rw [(ih (.m pos [inner] cs caps) (by simp [hsub])).trans hsub]
          dsimp only
          rw [hsub] at h; dsimp only at h
          exact ih _ h
        | fail =>
          rw [(ih (.m pos [inner] cs caps) (by simp [hsub])).trans hsub]
        | crash =>
          rw [(ih (.m pos [inner] cs caps) (by simp [hsub])).trans hsub]

/-- Fuel monotonicity between any two fuels. -/
theorem step_mono : ∀ (f g : Nat), f ≤ g → ∀ (q : Req), step f q ≠ .timeout →
    step g q = step f q := by
  intro f g hfg
  induction g, hfg using Nat.le_induction with
  | base => intro q _; rfl
  | succ g hfg ih =>
    intro q h
    rw [step_mono_succ g q (by rw [ih q h]; exact h)]
    exact ih q h

mutual

/-- No `CapEnd` marker occurs anywhere inside the node.  The parser never
emits `CapEnd`; the matcher synthesizes it. -/
def NoCE : Node → Prop
  | .Opt n => NoCE n
  | .Plus n => NoCE n
  | .Star n => NoCE n
  | .Rep n _ => NoCE n
  | .Cap _ brs => NoCEbrs brs
  | .CapEnd _ _ => False
  | _ => True

/-- `NoCE` for every node of every branch. -/
def NoCEbrs : List (List Node) → Prop
  | [] => True
  | b :: bs => NoCEl b ∧ NoCEbrs bs

/-- `NoCE` for every node of a list. -/
def NoCEl : List Node → Prop
  | [] => True
  | n :: ns => NoCE n ∧ NoCEl ns

end

theorem NoCEl_iff : ∀ (l : List Node), NoCEl l ↔ ∀ n ∈ l, NoCE n := by
  intro l
  induction l with
  | nil => simp [NoCEl]
  | cons n ns ih => simp [NoCEl, ih]

theorem NoCEbrs_iff : ∀ (brs : List (List Node)), NoCEbrs brs ↔ ∀ b ∈ brs, ∀ m ∈ b, NoCE m := by
  intro brs
  induction brs with
  | nil => simp [NoCEbrs]
  | cons b bs ih => simp [NoCEbrs, ih, NoCEl_iff]

mutual

/-- No back-reference occurs anywhere inside the node. -/
def NoRefN : Node → Prop
  | .Opt n => NoRefN n
  | .Plus n => NoRefN n
  | .Star n => NoRefN n
  | .Rep n _ => NoRefN n
  | .Cap _ brs => NoRefbrs brs
  | .Ref _ => False
  | _ => True

/-- `NoRefN` for every node of every branch. -/
def NoRefbrs : List (List Node) → Prop
  | [] => True
  | b :: bs => NoRefl b ∧ NoRefbrs bs

/-- `NoRefN` for every node of a list. -/
def NoRefl : List Node → Prop
  | [] => True
  | n :: ns => NoRefN n ∧ NoRefl ns

end

theorem NoRefl_iff : ∀ (l : List Node), NoRefl l ↔ ∀ n ∈ l, NoRefN n := by
  intro l
  induction l with
  | nil => simp [NoRefl]
  | cons n ns ih => simp [NoRefl, ih]

theorem NoRefbrs_iff : ∀ (brs : List (List Node)),
    NoRefbrs brs ↔ ∀ b ∈ brs, ∀ m ∈ b, NoRefN m := by
  intro brs
  induction brs with
  | nil => simp [NoRefbrs]
  | cons b bs ih => simp [NoRefbrs, ih, NoRefl_iff]

/-- Well-formedness of one node of a pending sequence at input position
`pos`: a `CapEnd` marker must have been synthesized at an earlier or equal
position, and any other node is parser-produced (`CapEnd`-free inside). -/
def NodeOkAt (pos : Nat) : Node → Prop
  | .CapEnd _ start => start ≤ pos
  | n => NoCE n

theorem NodeOkAt_of_NoCE {pos : Nat} {n : Node} (h : NoCE n) : NodeOkAt pos n := by
  cases n
  case CapEnd slot start => simp [NoCE] at h
  all_goals exact h

theorem NodeOkAt_mono {pos p2 : Nat} {n : Node} (h : NodeOkAt pos n) (hle : pos ≤ p2) :
    NodeOkAt p2 n := by
  cases n
  case CapEnd slot start =>
    simp only [NodeOkAt] at h ⊢
    omega
  all_goals exact h

/-- Well-formedness of a pending matcher call: the position is inside the
input and all pending `CapEnd` markers start at or before it. -/
def reqWF : Req → Prop
  | .m pos nodes cs _ => pos ≤ cs.length ∧ ∀ n ∈ nodes, NodeOkAt pos n
  | .mo pos inner rest cs _ =>
    pos ≤ cs.length ∧ NoCE inner ∧ ∀ n ∈ rest, NodeOkAt pos n
  | .tb brs _ pos tail cs _ =>
    pos ≤ cs.length ∧ (∀ b ∈ brs, ∀ m ∈ b, NoCE m) ∧ ∀ n ∈ tail, NodeOkAt pos n
  | .rp _ pos inner cs _ => pos ≤ cs.length ∧ NoCE inner

/-- The matcher never panics on a well-formed pending call: every character
index and the `CapEnd` slice `[start, pos)` stay in bounds. -/
theorem step_no_crash : ∀ (fuel : Nat) (q : Req), reqWF q → step fuel q ≠ .crash := by
  intro fuel
  induction fuel with
  | zero => intro q _; simp [step]
  | succ f ih =>
    intro q hwf
    match q with
    | .m pos nodes cs caps =>
      obtain ⟨hpos, hns⟩ := hwf
      match nodes with
      | [] => simp [step_m_nil]
      | head :: tail =>
        have hhead := hns head (List.mem_cons_self _ _)
        have htail : ∀ n ∈ tail, NodeOkAt pos n :=
          fun n hn => hns n (List.mem_cons_of_mem _ hn)
        match head with
        | .Plus inner =>
          have hh : NoCE inner := by simpa only [NodeOkAt, NoCE] using hhead
          rw [step_m_plus]
          exact ih (.mo pos inner tail cs caps) ⟨hpos, hh, htail⟩
        | .Star inner =>
          have hh : NoCE inner := by simpa only [NodeOkAt, NoCE] using hhead
          rw [step_m_star]
          cases hsub : step f (.mo pos inner tail cs caps) with
          | crash => exact absurd hsub (ih (.mo pos inner tail cs caps) ⟨hpos, hh, htail⟩)
          | fail => exact ih (.m pos tail cs caps) ⟨hpos, htail⟩
          | timeout => simp
          | ok e1 c1 => simp
        | .Rep inner count =>
          have hh : NoCE inner := by simpa only [NodeOkAt, NoCE] using hhead
          rw [step_m_rep]
          cases hsub : step f (.rp count pos inner cs caps) with
          | crash => exact absurd hsub (ih (.rp count pos inner cs caps) ⟨hpos, hh⟩)
          | ok p c2 =>
            have hb := step_ok_le f _ _ _ hsub
            simp [reqPos, reqCs] at hb
            exact ih (.m p tail cs c2)
              ⟨hb.2 hpos, fun n hn => NodeOkAt_mono (htail n hn) hb.1⟩
          | timeout => simp
          | fail => simp
        | .Opt inner =>
          have hh : NoCE inner := by simpa only [NodeOkAt, NoCE] using hhead
          rw [step_m_opt]
          cases hsub : step f (.m pos [inner] cs caps) with
          | crash =>
            exact absurd hsub (ih (.m pos [inner] cs caps)
              ⟨hpos, by simpa using NodeOkAt_of_NoCE hh⟩)
          | ok p1 c1 =>
            have hb := step_ok_le f _ _ _ hsub
            simp [reqPos, reqCs] at hb
            dsimp only
            cases hsub2 : step f (.m p1 tail cs c1) with
            | crash =>
              exact absurd hsub2 (ih (.m p1 tail cs c1)
                ⟨hb.2 hpos, fun n hn => NodeOkAt_mono (htail n hn) hb.1⟩)
            | fail => exact ih (.m pos tail cs caps) ⟨hpos, htail⟩
            | timeout => simp
            | ok e2 c2 => simp
          | fail => exact ih (.m pos tail cs caps) ⟨hpos, htail⟩
          | timeout => simp
        | .Lit ch =>
          rw [step_m_lit]
          split
          next hc =>
            exact ih (.m (pos + 1) tail cs caps)
              ⟨hc.1, fun n hn => NodeOkAt_mono (htail n hn) (by omega)⟩
          next => simp
        | .Digit =>
          rw [step_m_digit]
          split
          next hc =>
            exact ih (.m (pos + 1) tail cs caps)
              ⟨hc.1, fun n hn => NodeOkAt_mono (htail n hn) (by omega)⟩
          next => simp
        | .Word =>
          rw [step_m_word]
          split
          next hc =>
            exact ih (.m (pos + 1) tail cs caps)
              ⟨hc.1, fun n hn => NodeOkAt_mono (htail n hn) (by omega)⟩
          next => simp
        | .Any =>
          rw [step_m_any]
          split
          next hc =>
            exact ih (.m (pos + 1) tail cs caps)
              ⟨hc, fun n hn => NodeOkAt_mono (htail n hn) (by omega)⟩
          next => simp
        | .Pos s =>
          rw [step_m_posc]
          split
          next hc =>
            exact ih (.m (pos + 1) tail cs caps)
              ⟨hc.1, fun n hn => NodeOkAt_mono (htail n hn) (by omega)⟩
          next => simp
        | .Neg s =>
          rw [step_m_negc]
          split
          next hc =>
            exact ih (.m (pos + 1) tail cs caps)
              ⟨hc.1, fun n hn => NodeOkAt_mono (htail n hn) (by omega)⟩
          next => simp
        | .Cap id brs =>
          have hh : ∀ b ∈ brs, ∀ m ∈ b, NoCE m := by
            rw [← NoCEbrs_iff]
            simpa only [NodeOkAt, NoCE] using hhead
          rw [step_m_cap]
          exact ih (.tb brs (id - 1) pos tail cs caps) ⟨hpos, hh, htail⟩
        | .CapEnd slot start =>
          rw [step_m_capend]
          have hst : start ≤ pos := by simpa only [NodeOkAt] using hhead
          rw [if_pos ⟨hst, hpos⟩]
          exact ih (.m pos tail cs (setSlot caps slot ((cs.drop start).take (pos - start))))
            ⟨hpos, htail⟩
        | .Ref n =>
          rw [step_m_ref]
          cases caps.getD (n - 1) none with
          | some s =>
            dsimp only
            split
            next hc =>
              exact ih (.m (pos + s.length) tail cs caps)
                ⟨hc.1, fun m hm => NodeOkAt_mono (htail m hm) (by omega)⟩
            next => simp
          | none => simp
    | .mo pos inner rest cs caps =>
      obtain ⟨hpos, hin, hrest⟩ := hwf
      rw [step_mo_eq]
      cases hsub : step f (.m pos [inner] cs caps) with
      | crash =>
        exact absurd hsub (ih (.m pos [inner] cs caps)
          ⟨hpos, by simpa using NodeOkAt_of_NoCE hin⟩)
      | ok p1 c1 =>
        have hb := step_ok_le f _ _ _ hsub
        simp [reqPos, reqCs] at hb
        have hrest1 : ∀ n ∈ rest, NodeOkAt p1 n :=
          fun n hn => NodeOkAt_mono (hrest n hn) hb.1
        dsimp only
        cases hsub2 : step f (.mo p1 inner rest cs c1) with
        | crash =>
          exact absurd hsub2 (ih (.mo p1 inner rest cs c1) ⟨hb.2 hpos, hin, hrest1⟩)
        | fail => exact ih (.m p1 rest cs c1) ⟨hb.2 hpos, hrest1⟩
        | timeout => simp
        | ok e2 c2 => simp
      | fail => simp
      | timeout => simp
    | .tb brs slot pos tail cs caps =>
      obtain ⟨hpos, hbrs, htail⟩ := hwf
      match brs with
      | [] => simp [step_tb_nil]
      | b :: bs =>
        rw [step_tb_cons]
        cases hsub : step f (.m pos (b ++ .CapEnd slot pos :: tail) cs caps) with
        | crash =>
          refine absurd hsub (ih (.m pos (b ++ .CapEnd slot pos :: tail) cs caps) ⟨hpos, ?_⟩)
          intro n hn
          rcases List.mem_append.mp hn with hn1 | hn1
          · exact NodeOkAt_of_NoCE (hbrs b (List.mem_cons_self _ _) n hn1)
          · rcases List.mem_cons.mp hn1 with hn2 | hn2
            · subst hn2; simp [NodeOkAt]
            · exact htail n hn2
        | fail =>
          exact ih (.tb bs slot pos tail cs caps)
            ⟨hpos, fun b2 hb2 => hbrs b2 (List.mem_cons_of_mem _ hb2), htail⟩
        | timeout => simp
        | ok e1 c1 => simp
    | .rp count pos inner cs caps =>
      obtain ⟨hpos, hin⟩ := hwf
      match count with
      | 0 => simp [step_rp_zero]
      | k + 1 =>
        rw [step_rp_succ]
        cases hsub : step f (.m pos [inner] cs caps) with
        | crash =>
          exact absurd hsub (ih (.m pos [inner] cs caps)
            ⟨hpos, by simpa using NodeOkAt_of_NoCE hin⟩)
        | ok p c2 =>
          have hb := step_ok_le f _ _ _ hsub
          simp [reqPos, reqCs] at hb
          exact ih (.rp k p inner cs c2) ⟨hb.2 hpos, hin⟩
        | fail => simp
        | timeout => simp

theorem applyQuant_noCE {n : Node} {r : List Char} {n2 : Node} {r2 : List Char}
    (h : applyQuant n r = .ok (n2, r2)) (hn : NoCE n) : NoCE n2 := by
  unfold applyQuant at h
  match r with
  | [] =>
    simp at h
    obtain ⟨h1, h2⟩ := h
    subst h1
    exact hn
  | c :: rest =>
    simp only [] at h
    split at h
    · simp at h
      obtain ⟨h1, h2⟩ := h
      subst h1
      simpa [NoCE] using hn
    · split at h
      · simp at h
        obtain ⟨h1, h2⟩ := h
        subst h1
        simpa [NoCE] using hn
      · split at h
        · simp at h
          obtain ⟨h1, h2⟩ := h
          subst h1
          simpa [NoCE] using hn
        · split at h
          · split at h
            next r3 heq =>
              split at h
              · split at h
                · simp at h
                · simp at h
                  obtain ⟨h1, h2⟩ := h
                  subst h1
                  simpa [NoCE] using hn
              · simp at h
            next => simp at h
          · simp at h
            obtain ⟨h1, h2⟩ := h
            subst h1
            exact hn

/-- Every node produced by the parser is free of `CapEnd` markers; proved
jointly for `elems`, `branchesGo` and `cont` by strong induction on the
input length. -/
theorem parser_noCE_all : ∀ (N : Nat),
    (∀ cs gid ns l g2, cs.length < N → elems cs gid = .ok (ns, l, g2) → NoCEl ns) ∧
    (∀ segs gid out g2, maxLen segs < N → branchesGo segs gid = .ok (out, g2) →
      NoCEbrs out) ∧
    (∀ n r gid ns l g2, r.length < N → NoCE n → cont n r gid = .ok (ns, l, g2) →
      NoCEl ns) := by
  intro N
  induction N using Nat.strong_induction_on with
  | _ N ihs =>
    have E : ∀ cs gid ns l g2, cs.length < N → elems cs gid = .ok (ns, l, g2) →
        NoCEl ns := by
      intro cs gid ns l g2 hlen heq
      cases cs with
      | nil =>
        simp [elems] at heq
        obtain ⟨h1, h2, h3⟩ := heq
        subst h1
        simp [NoCEl]
      | cons c rest =>
        simp only [List.length_cons] at hlen
        rw [elems.eq_def] at heq
        dsimp only at heq
        split at heq
        · simp at heq
          obtain ⟨h1, h2, h3⟩ := heq
          subst h1
          simp [NoCEl]
        · split at heq
          · cases rest with
            | nil => simp at heq
            | cons e rest2 =>
              dsimp only at heq
              simp only [List.length_cons] at hlen
              refine (ihs (rest2.length + 2) (by omega)).2.2 _ rest2 gid ns l g2
                (by omega) ?_ heq
              split
              · trivial
              · split
                · trivial
                · split
                  · trivial
                  · trivial
          · split at heq
            · split at heq
              next c2 rest3 hcl =>
                split at heq
                · have h6 : (c2 :: rest3).length ≤ rest.length := by
                    rw [← hcl]
                    refine Nat.le_trans ((List.dropWhile_sublist _).length_le) ?_
                    split
                    · exact (List.length_tail _) ▸ Nat.sub_le _ _
                    · exact Nat.le_refl _
                  simp only [List.length_cons] at h6
                  refine (ihs (rest.length + 1) (by omega)).2.2 _ rest3 gid ns l g2
                    (by omega) ?_ heq
                  split
                  · trivial
                  · trivial
                · simp at heq
              next => simp at heq
            · split at heq
              · split at heq
                · simp at heq
                · next brs gid2 hbg =>
                  have hb1 := collectBody_fst_length_le rest 0
                  have hb2 := collectBody_snd_length_le rest 0
                  have hml : maxLen (splitTop (collectBody rest 0).1) ≤
                      (collectBody rest 0).1.length := maxLen_le (splitTop_length_le _)
                  have hbrs : NoCEbrs brs :=
                    (ihs (rest.length + 1) (by omega)).2.1 _ (gid + 1) brs gid2
                      (by omega) hbg
                  refine (ihs (rest.length + 1) (by omega)).2.2 _
                    (collectBody rest 0).2 gid2 ns l g2 (by omega) ?_ heq
                  exact hbrs
              · split at heq
                · refine (ihs (rest.length + 1) (by omega)).2.2 _ rest gid ns l g2
                    (by omega) ?_ heq
                  trivial
                · refine (ihs (rest.length + 1) (by omega)).2.2 _ rest gid ns l g2
                    (by omega) ?_ heq
                  trivial
    have C : ∀ n r gid ns l g2, r.length < N → NoCE n → cont n r gid = .ok (ns, l, g2) →
        NoCEl ns := by
      intro n r gid ns l g2 hlen hn heq
      rw [cont.eq_def] at heq
      split at heq
      · simp at heq
      · next n2 r2 haq =>
        split at heq
        · simp at heq
        · next ns2 leftover gid2 hel =>
          simp at heq
          obtain ⟨h1, h2, h3⟩ := heq
          subst h1
          have hr2 : r2.length ≤ r.length := applyQuant_length_le n r n2 r2 haq
          exact ⟨applyQuant_noCE haq hn, E r2 gid ns2 leftover gid2 (by omega) hel⟩
    have B : ∀ segs gid out g2, maxLen segs < N → branchesGo segs gid = .ok (out, g2) →
        NoCEbrs out := by
      intro segs
      induction segs with
      | nil =>
        intro gid out g2 _ heq
        simp [branchesGo] at heq
        obtain ⟨h1, h2⟩ := heq
        subst h1
        simp [NoCEbrs]
      | cons seg rest ih2 =>
        intro gid out g2 hlen heq
        rw [branchesGo.eq_def] at heq
        dsimp only at heq
        split at heq
        · simp at heq
        · next ns lo gid2 hel =>
          split at heq
          · simp at heq
          · next out2 gid3 hbg =>
            simp at heq
            obtain ⟨h1, h2⟩ := heq
            subst h1
            have hseg : seg.length ≤ maxLen (seg :: rest) :=
              le_maxLen (List.mem_cons_self _ _)
            have hrest : maxLen rest ≤ maxLen (seg :: rest) :=
              maxLen_le (fun s hs => le_maxLen (List.mem_cons_of_mem _ hs))
            exact ⟨E seg gid ns lo gid2 (by omega) hel, ih2 gid2 out2 gid3 (by omega) hbg⟩
    exact ⟨E, B, C⟩

/-- The zero-width loop at the heart of `more`: if the quantified node can
succeed at a position without consuming input, the greedy recursion of
`more` re-enters itself at the same position forever — `timeout` at every
fuel. -/
theorem more_zero_width_timeout (capN : Node) (zw : Caps → Caps)
    (hzw : ∀ f caps, step f (.m 0 [capN] [] caps) = .timeout ∨
      step f (.m 0 [capN] [] caps) = .ok 0 (zw caps)) :
    ∀ f caps, step f (.mo 0 capN [] [] caps) = .timeout := by
  intro f
  induction f with
  | zero => intro caps; rfl
  | succ f ih =>
    intro caps
    rw [step_mo_eq]
    rcases hzw f caps with h | h
    · rw [h]
    · rw [h]
      dsimp only
      rw [ih (zw caps)]

/-- `(a*)` as the parser builds it inside `(a*)+`. -/
def starGroup : Node := .Cap 1 [[.Star (.Lit 'a')]]

/-- `(a?)` as the parser builds it inside `(a?)+`. -/
def optGroup : Node := .Cap 1 [[.Opt (.Lit 'a')]]

theorem starGroup_zero_width : ∀ (f : Nat) (caps : Caps),
    step f (.m 0 [starGroup] [] caps) = .timeout ∨
    step f (.m 0 [starGroup] [] caps) = .ok 0 (setSlot caps 0 []) := by
  intro f caps
  match f with
  | 0 => left; rfl
  | 1 => left; rfl
  | 2 => left; rfl
  | 3 => left; rfl
  | 4 => left; rfl
  | f + 5 => right; rfl

theorem optGroup_zero_width : ∀ (f : Nat) (caps : Caps),
    step f (.m 0 [optGroup] [] caps) = .timeout ∨
    step f (.m 0 [optGroup] [] caps) = .ok 0 (setSlot caps 0 []) := by
  intro f caps
  match f with
  | 0 => left; rfl
  | 1 => left; rfl
  | 2 => left; rfl
  | 3 => left; rfl
  | 4 => left; rfl
  | f + 5 => right; rfl

theorem plus_starGroup_timeout : ∀ (f : Nat) (caps : Caps),
    step f (.m 0 [.Plus starGroup] [] caps) = .timeout := by
  intro f caps
  cases f with
  | zero => rfl
  | succ f =>
    rw [step_m_plus]
    exact more_zero_width_timeout starGroup (fun c => setSlot c 0 [])
      starGroup_zero_width f caps

theorem plus_optGroup_timeout : ∀ (f : Nat) (caps : Caps),
    step f (.m 0 [.Plus optGroup] [] caps) = .timeout := by
  intro f caps
  cases f with
  | zero => rfl
  | succ f =>
    rw [step_m_plus]
    exact more_zero_width_timeout optGroup (fun c => setSlot c 0 [])
      optGroup_zero_width f caps

/-- The start-offset loop returns the same verdict at any larger fuel once
it completes. -/
theorem tryStarts_mono : ∀ (f g : Nat), f ≤ g → ∀ (starts : List Nat) (ns : List Node)
    (cs : List Char) (endA : Bool), tryStarts f starts ns cs endA ≠ .timeout →
    tryStarts g starts ns cs endA = tryStarts f starts ns cs endA := by
  intro f g hfg starts
  induction starts with
  | nil => intro ns cs endA _; rfl
  | cons st rest ih =>
    intro ns cs endA h
    simp only [tryStarts] at h ⊢
    cases hsub : match_from f st ns cs [] with
    | timeout => rw [hsub] at h; dsimp only at h; exact absurd rfl h
    | crash =>
      rw [hsub] at h
      rw [show match_from g st ns cs [] = .crash from
        (step_mono f g hfg _ (by unfold match_from at hsub; rw [hsub]; simp)).trans hsub]
    | fail =>
      rw [hsub] at h; dsimp only at h
      rw [show match_from g st ns cs [] = .fail from
        (step_mono f g hfg _ (by unfold match_from at hsub; rw [hsub]; simp)).trans hsub]
      dsimp only
      exact ih ns cs endA h
    | ok e c =>
      rw [hsub] at h; dsimp only at h
      rw [show match_from g st ns cs [] = .ok e c from
        (step_mono f g hfg _ (by unfold match_from at hsub; rw [hsub]; simp)).trans hsub]
      dsimp only
      cases endA with
      | false => rfl
      | true =>
        by_cases he : e = cs.length
        · simp [he]
        · simp only [he] at h ⊢
          simp at h ⊢
          exact ih ns cs true h

/-- `is_match` returns the same verdict at any larger fuel once it completes. -/
theorem is_match_mono : ∀ (f g : Nat), f ≤ g → ∀ (input pat : String),
    is_match f input pat ≠ .timeout → is_match g input pat = is_match f input pat := by
  intro f g hfg input pat h
  unfold is_match at h ⊢
  cases hp : parse pat with
  | error msg => rfl
  | ok v =>
    rw [hp] at h
    obtain ⟨ns, sa, ea⟩ := v
    dsimp only at h ⊢
    exact tryStarts_mono f g hfg _ ns input.data ea h

/-- Every node of a successfully parsed pattern is `CapEnd`-free. -/
theorem parse_noCE : ∀ (pat : String) (ns : List Node) (sa ea : Bool),
    parse pat = .ok (ns, sa, ea) → NoCEl ns := by
  intro pat ns sa ea hp
  unfold parse at hp
  dsimp only at hp
  split at hp
  · simp at hp
  · next ns2 l g hel =>
    simp at hp
    obtain ⟨h1, h2, h3⟩ := hp
    subst h1
    exact (parser_noCE_all _).1 _ 0 ns2 l g (Nat.lt_succ_self _) hel

/-- The start-offset loop never crashes on parser-produced nodes. -/
theorem tryStarts_no_crash : ∀ (f : Nat) (starts : List Nat) (ns : List Node)
    (cs : List Char) (endA : Bool), NoCEl ns → (∀ st ∈ starts, st ≤ cs.length) →
    tryStarts f starts ns cs endA = .timeout ∨
    ∃ b, tryStarts f starts ns cs endA = .found b := by
  intro f starts
  induction starts with
  | nil =>
    intro ns cs endA _ _
    right
    exact ⟨false, rfl⟩
  | cons st rest ih =>
    intro ns cs endA hns hst
    simp only [tryStarts]
    cases hsub : match_from f st ns cs [] with
    | crash =>
      refine absurd hsub (step_no_crash f (.m st ns cs []) ?_)
      exact ⟨hst st (List.mem_cons_self _ _),
        fun n hn => NodeOkAt_of_NoCE ((NoCEl_iff ns).mp hns n hn)⟩
    | timeout => left; rfl
    | fail => exact ih ns cs endA hns (fun s hs => hst s (List.mem_cons_of_mem _ hs))
    | ok e c =>
      cases endA with
      | false => right; exact ⟨true, by simp⟩
      | true =>
        by_cases he : e = cs.length
        · right; exact ⟨true, by simp [he]⟩
        · have hrec := ih ns cs true hns (fun s hs => hst s (List.mem_cons_of_mem _ hs))
          simpa [he] using hrec

theorem parse_star_plus : parse ("(a*)+") = .ok ([.Plus starGroup], false, false) := by
  simp [parse, stripCaret, stripDollar, elems, cont, branchesGo, collectBody, splitTop, splitTopAux, applyQuant,
    starGroup]

theorem parse_opt_plus : parse ("(a?)+") = .ok ([.Plus optGroup], false, false) := by
  simp [parse, stripCaret, stripDollar, elems, cont, branchesGo, collectBody, splitTop, splitTopAux, applyQuant,
    optGroup]

theorem is_match_opt_plus_timeout : ∀ (f : Nat), is_match f "" ("(a?)+") = .timeout := by
  intro f
  have hm : match_from f 0 [.Plus optGroup] [] [] = .timeout := plus_optGroup_timeout f []
  unfold match_from at hm
  simp only [is_match, parse_opt_plus]
  show tryStarts f [0] [.Plus optGroup] [] false = .timeout
  simp only [tryStarts, match_from, hm]

/-- C2: the claim that `Plus`/`Star` never produce a zero-width infinite
loop is wrong about this code: on pattern `(a*)+` and input `""` the inner
group `(a*)` matches zero width, and `more` re-enters itself at position 0
with the same state forever, so the fuel-indexed run is `timeout` at every
fuel — the Rust matcher does not terminate. -/
theorem C2_matcher_diverges_on_nullable_plus :
    ∀ (f : Nat), is_match f "" ("(a*)+") = .timeout := by
  intro f
  have hm : match_from f 0 [.Plus starGroup] [] [] = .timeout := plus_starGroup_timeout f []
  unfold match_from at hm
  simp only [is_match, parse_star_plus]
  show tryStarts f [0] [.Plus starGroup] [] false = .timeout
  simp only [tryStarts, match_from, hm]

/-- C4 (counterexample): the matcher does not return a result on every
parser-accepted pattern — on `(a?)+` and input `""` no fuel suffices, the
Rust run diverges. -/
theorem C4_cex_zero_width_loop :
    ¬ ∃ (f : Nat) (b : Bool), is_match f "" ("(a?)+") = .found b := by
  rintro ⟨f, b, hfb⟩
  rw [is_match_opt_plus_timeout f] at hfb
  cases hfb

/-- C4 (amended): on every pattern the parser accepts and every input, the
matcher never panics — all character indexing is bounds-guarded, capture
slot access is in range and the `CapEnd` slice `[start, pos)` is
well-formed — and every run that terminates returns a boolean verdict (it
may instead fail to terminate, see the zero-width quantifier loop). -/
theorem C4_matcher_no_panic : ∀ (f : Nat) (s pat : String) (ns : List Node) (sa ea : Bool),
    parse pat = .ok (ns, sa, ea) →
    is_match f s pat = .timeout ∨ ∃ b, is_match f s pat = .found b := by
  intro f s pat ns sa ea hp
  have hns := parse_noCE pat ns sa ea hp
  unfold is_match
  rw [hp]
  dsimp only
  refine tryStarts_no_crash f _ ns s.data ea hns ?_
  cases sa with
  | true =>
    intro st hst
    simp at hst
    subst hst
    exact Nat.zero_le _
  | false =>
    intro st hst
    exact Nat.lt_succ_iff.mp (List.mem_range.mp hst)

theorem C4_matcher_no_panic_witness :
    is_match 10 "b" "a" = .timeout ∨ ∃ b, is_match 10 "b" "a" = .found b :=
  C4_matcher_no_panic 10 "b" "a" [.Lit 'a'] false false (by
    simp [parse, stripCaret, stripDollar, elems, cont, branchesGo, collectBody, splitTop, splitTopAux, applyQuant])

/-- C7: greediness of `Plus` — `a+a` matches `aaaa` (the greedy `a+` backs
off one character for the trailing `a`) and fails on `a` (no character
left for the tail); stated for every fuel large enough for the run to
complete. -/
theorem C7_plus_greediness :
    (∀ f, 100 ≤ f → is_match f "aaaa" "a+a" = .found true) ∧
    (∀ f, 100 ≤ f → is_match f "a" "a+a" = .found false) := by
  have h1 : is_match 100 "aaaa" "a+a" = .found true := by
    simp [is_match, parse, stripCaret, stripDollar, elems, cont, branchesGo, collectBody, splitTop, splitTopAux,
      applyQuant]
    decide
  have h2 : is_match 100 "a" "a+a" = .found false := by
    simp [is_match, parse, stripCaret, stripDollar, elems, cont, branchesGo, collectBody, splitTop, splitTopAux,
      applyQuant]
    decide
  refine ⟨fun f hf => ?_, fun f hf => ?_⟩
  · rw [is_match_mono 100 f hf _ _ (by rw [h1]; simp), h1]
  · rw [is_match_mono 100 f hf _ _ (by rw [h2]; simp), h2]

theorem C7_plus_greediness_witness :
    is_match 100 "aaaa" "a+a" = .found true ∧ is_match 100 "a" "a+a" = .found false :=
  ⟨C7_plus_greediness.1 100 (Nat.le_refl _), C7_plus_greediness.2 100 (Nat.le_refl _)⟩

/-- The branch loop of the `Cap` arm of `match_from`, with fuel. -/
def tryBranches (fuel : Nat) (brs : List (List Node)) (slot pos : Nat) (tail : List Node)
    (cs : List Char) (caps : Caps) : MRes :=
  step fuel (.tb brs slot pos tail cs caps)

/-- C5: capture isolation under backtracking.  When one alternative of a
group fails, the next sibling alternative is tried with exactly the
capture table the group was entered with (`caps` — the code clones it per
branch); when the taken branch of an `Optional` fails (the inner node
itself, or the tail after it), the fallback matches the tail with the
entry table `caps`, so a failed sub-match leaks no captures. -/
theorem C5_capture_isolation :
    ∀ (f pos slot : Nat) (b : List Node) (bs : List (List Node)) (tail : List Node)
      (cs : List Char) (caps : Caps) (inner : Node) (p1 : Nat) (c1 : Caps),
      (match_from f pos (b ++ .CapEnd slot pos :: tail) cs caps = .fail →
        tryBranches (f + 1) (b :: bs) slot pos tail cs caps =
          tryBranches f bs slot pos tail cs caps)
      ∧ (match_from f pos [inner] cs caps = .fail →
        match_from (f + 1) pos (.Opt inner :: tail) cs caps =
          match_from f pos tail cs caps)
      ∧ (match_from f pos [inner] cs caps = .ok p1 c1 →
        match_from f p1 tail cs c1 = .fail →
        match_from (f + 1) pos (.Opt inner :: tail) cs caps =
          match_from f pos tail cs caps) := by
  intro f pos slot b bs tail cs caps inner p1 c1
  refine ⟨fun h => ?_, fun h => ?_, fun h1 h2 => ?_⟩
  · unfold tryBranches
    rw [step_tb_cons]
    unfold match_from at h
    rw [h]
  · unfold match_from at h ⊢
    rw [step_m_opt, h]
  · unfold match_from at h1 h2 ⊢
    rw [step_m_opt, h1]
    dsimp only
    rw [h2]

theorem C5_capture_isolation_witness :
    tryBranches 6 [[.Lit 'a'], [.Lit 'b']] 0 0 [] ['b'] [] =
      tryBranches 5 [[.Lit 'b']] 0 0 [] ['b'] [] ∧
    match_from 6 0 [.Opt (.Lit 'a')] ['b'] [] = match_from 5 0 [] ['b'] [] ∧
    match_from 6 0 [.Opt (.Lit 'b'), .Lit 'c'] ['b'] [] = match_from 5 0 [.Lit 'c'] ['b'] [] :=
  ⟨(C5_capture_isolation 5 0 0 [.Lit 'a'] [[.Lit 'b']] [] ['b'] [] (.Lit 'a') 0 []).1
      (by decide),
   (C5_capture_isolation 5 0 0 [.Lit 'a'] [[.Lit 'b']] [] ['b'] [] (.Lit 'a') 0 []).2.1
      (by decide),
   (C5_capture_isolation 5 0 0 [.Lit 'a'] [[.Lit 'b']] [.Lit 'c'] ['b'] [] (.Lit 'b') 1 []).2.2
      (by decide) (by decide)⟩

/-- C6: `BackRef(n)` fails exactly when capture slot `n−1` is absent or the
input at the current position does not begin with the captured string; on
success it consumes exactly the captured string (the position advances by
its length) and the capture table comes back unchanged. -/
theorem C6_backref_semantics : ∀ (f pos n : Nat) (cs : List Char) (caps : Caps),
    match_from (f + 2) pos [.Ref n] cs caps =
      (match caps.getD (n - 1) none with
       | some s =>
         if pos + s.length ≤ cs.length ∧ (cs.drop pos).take s.length = s
         then .ok (pos + s.length) caps
         else .fail
       | none => .fail) := by
  intro f pos n cs caps
  unfold match_from
  rw [step_m_ref]
  cases caps.getD (n - 1) none with
  | some s =>
    dsimp only
    split
    · rw [step_m_nil]
    · rfl
  | none => rfl

theorem collectBody_no_rparen : ∀ (xs : List Char) (d : Nat), ')' ∉ xs →
    collectBody xs d = (xs, []) := by
  intro xs
  induction xs with
  | nil => intro d _; rfl
  | cons x rest ih =>
    intro d hx
    have hx1 : x ≠ ')' := fun hc => hx (hc ▸ List.mem_cons_self _ _)
    have hx2 : ')' ∉ rest := fun hc => hx (List.mem_cons_of_mem _ hc)
    simp only [collectBody]
    by_cases hxo : x = '('
    · rw [if_pos hxo, ih (d + 1) hx2]
    · rw [if_neg hxo, if_neg hx1, ih d hx2]

theorem collectBody_stop : ∀ (xs : List Char) (r : List Char), '(' ∉ xs → ')' ∉ xs →
    collectBody (xs ++ ')' :: r) 0 = (xs, r) := by
  intro xs
  induction xs with
  | nil =>
    intro r _ _
    simp [collectBody]
  | cons x rest ih =>
    intro r ho hx
    have ho1 : x ≠ '(' := fun hc => ho (hc ▸ List.mem_cons_self _ _)
    have ho2 : '(' ∉ rest := fun hc => ho (List.mem_cons_of_mem _ hc)
    have hx1 : x ≠ ')' := fun hc => hx (hc ▸ List.mem_cons_self _ _)
    have hx2 : ')' ∉ rest := fun hc => hx (List.mem_cons_of_mem _ hc)
    simp only [List.cons_append, collectBody]
    rw [if_neg ho1, if_neg hx1]
    simp only [List.append_eq]
    rw [ih r ho2 hx2]

theorem stripDollar_of_getLast : ∀ (l : List Char), l.getLast? ≠ some '$' →
    stripDollar l = (false, l) := by
  intro l hl
  unfold stripDollar
  cases hr : l.reverse with
  | nil => rfl
  | cons c r =>
    dsimp only
    rw [if_neg]
    intro hc
    subst hc
    apply hl
    rw [← List.head?_reverse, hr]
    rfl

theorem stripDollar_false : ∀ (l : List Char), (stripDollar l).1 = false →
    (stripDollar l).2 = l := by
  intro l h
  unfold stripDollar at h ⊢
  cases hr : l.reverse with
  | nil => rfl
  | cons c r =>
    rw [hr] at h
    dsimp only at h ⊢
    by_cases hc : c = '$'
    · rw [if_pos hc] at h ⊢
      cases r with
      | nil => simp at h
      | cons c2 r2 =>
        dsimp only at h ⊢
        by_cases hc2 : c2 = '\\'
        · rw [if_pos hc2]
        · rw [if_neg hc2] at h
          simp at h
    · rw [if_neg hc]

theorem stripCaret_getLast : ∀ (l : List Char) (ch : Char),
    (stripCaret l).2.getLast? = some ch → l.getLast? = some ch := by
  intro l ch h
  unfold stripCaret at h
  cases l with
  | nil => simp at h
  | cons c rest =>
    dsimp only at h
    split at h
    · cases rest with
      | nil => simp at h
      | cons c2 r2 => rw [List.getLast?_cons_cons]; exact h
    · exact h

theorem dropWhile_append_stop {p : Char → Bool} : ∀ (xs ys zs : List Char) (z : Char),
    xs.dropWhile p = z :: zs →
    (xs ++ ys).dropWhile p = z :: (zs ++ ys) ∧ (xs ++ ys).takeWhile p = xs.takeWhile p := by
  intro xs
  induction xs with
  | nil => intro ys zs z h; simp [List.dropWhile] at h
  | cons x rest ih =>
    intro ys zs z h
    rw [List.dropWhile_cons] at h
    by_cases hp : p x
    · rw [if_pos hp] at h
      obtain ⟨h1, h2⟩ := ih ys zs z h
      simp [List.dropWhile_cons, List.takeWhile_cons, hp, h1, h2]
    · rw [if_neg hp] at h
      injection h with hz hzs
      subst hz
      subst hzs
      simp [List.dropWhile_cons, List.takeWhile_cons, hp]

theorem dropWhile_append_notp {p : Char → Bool} {y : Char} (hy : p y = false) :
    ∀ (xs ys : List Char),
    (xs ++ y :: ys).dropWhile p = xs.dropWhile p ++ y :: ys ∧
    (xs ++ y :: ys).takeWhile p = xs.takeWhile p := by
  intro xs
  induction xs with
  | nil =>
    intro ys
    simp [List.dropWhile_cons, List.takeWhile_cons, hy]
  | cons x rest ih =>
    intro ys
    by_cases hp : p x
    · obtain ⟨h1, h2⟩ := ih ys
      simp [List.dropWhile_cons, List.takeWhile_cons, hp, h1, h2]
    · simp [List.dropWhile_cons, List.takeWhile_cons, hp]

theorem applyQuant_extend : ∀ (n : Node) (rr : List Char) (n2 : Node) (r2 : List Char)
    (r : List Char), applyQuant n rr = .ok (n2, r2) →
    applyQuant n (rr ++ ')' :: r) = .ok (n2, r2 ++ ')' :: r) := by
  intro n rr n2 r2 r h
  unfold applyQuant at h ⊢
  cases rr with
  | nil =>
    dsimp only at h
    simp only [List.nil_append]
    simp at h
    obtain ⟨h1, h2⟩ := h
    subst h1
    subst h2
    simp
  | cons c rest =>
    simp only [List.cons_append]
    dsimp only at h ⊢
    by_cases h1 : c = '+'
    · rw [if_pos h1] at h ⊢
      simp at h
      obtain ⟨ha, hb⟩ := h
      subst ha
      subst hb
      rfl
    · rw [if_neg h1] at h ⊢
      by_cases h2 : c = '?'
      · rw [if_pos h2] at h ⊢
        simp at h
        obtain ⟨ha, hb⟩ := h
        subst ha
        subst hb
        rfl
      · rw [if_neg h2] at h ⊢
        by_cases h3 : c = '*'
        · rw [if_pos h3] at h ⊢
          simp at h
          obtain ⟨ha, hb⟩ := h
          subst ha
          subst hb
          rfl
        · rw [if_neg h3] at h ⊢
          by_cases h4 : c = '{'
          · rw [if_pos h4] at h ⊢
            try dsimp only at h
            try dsimp only
            cases hdw : rest.dropWhile Char.isDigit with
            | nil => rw [hdw] at h; simp at h
            | cons c2 r3 =>
              rw [hdw] at h
              dsimp only at h
              have hext := dropWhile_append_stop rest (')' :: r) r3 c2 hdw
              rw [hext.1, hext.2]
              dsimp only
              by_cases hc2 : c2 = '}'
              · rw [if_pos hc2] at h ⊢
                by_cases hds : (rest.takeWhile Char.isDigit).isEmpty
                · rw [if_pos hds] at h
                  simp at h
                · rw [if_neg hds] at h ⊢
                  simp at h
                  obtain ⟨ha, hb⟩ := h
                  subst ha
                  subst hb
                  rfl
              · rw [if_neg hc2] at h
                simp at h
          · rw [if_neg h4] at h ⊢
            simp at h
            obtain ⟨ha, hb⟩ := h
            subst ha
            subst hb
            rfl

/-- The last element of a list with something appended on the left. -/
theorem getLast_append_cons (x y : List Char) (c : Char) :
    (x ++ c :: y).getLast? = (c :: y).getLast? := by
  rcases y.eq_nil_or_concat with h | ⟨z, d, h⟩
  · subst h; simp
  · subst h
    simp only [List.concat_eq_append]
    have hl : (c :: (z ++ [d])).getLast? = some d := by
      rw [show c :: (z ++ [d]) = (c :: z) ++ [d] by simp]
      exact List.getLast?_concat _
    simp [hl]

theorem applyQuant_sublist (n : Node) (r : List Char) (n2 : Node) (r2 : List Char)
    (h : applyQuant n r = .ok (n2, r2)) : r2.Sublist r := by
  unfold applyQuant at h
  cases r with
  | nil =>
    simp at h
    obtain ⟨h1, h2⟩ := h
    subst h2
    exact List.Sublist.refl _
  | cons c rest =>
    dsimp only at h
    by_cases h1 : c = '+'
    · rw [if_pos h1] at h
      simp at h
      obtain ⟨ha, hb⟩ := h
      subst hb
      exact (List.Sublist.refl rest).cons _
    · rw [if_neg h1] at h
      by_cases h2 : c = '?'
      · rw [if_pos h2] at h
        simp at h
        obtain ⟨ha, hb⟩ := h
        subst hb
        exact (List.Sublist.refl rest).cons _
      · rw [if_neg h2] at h
        by_cases h3 : c = '*'
        · rw [if_pos h3] at h
          simp at h
          obtain ⟨ha, hb⟩ := h
          subst hb
          exact (List.Sublist.refl rest).cons _
        · rw [if_neg h3] at h
          by_cases h4 : c = '{'
          · rw [if_pos h4] at h
            try dsimp only at h
            cases hdw : rest.dropWhile Char.isDigit with
            | nil => rw [hdw] at h; simp at h
            | cons c2 r3 =>
              rw [hdw] at h
              dsimp only at h
              by_cases hc2 : c2 = '}'
              · rw [if_pos hc2] at h
                by_cases hds : (rest.takeWhile Char.isDigit).isEmpty
                · rw [if_pos hds] at h
                  simp at h
                · rw [if_neg hds] at h
                  simp at h
                  obtain ⟨ha, hb⟩ := h
                  subst hb
                  have hd : (c2 :: r3).Sublist rest := hdw ▸ List.dropWhile_sublist _
                  exact (((List.Sublist.refl r3).cons c2).trans hd).cons _
              · rw [if_neg hc2] at h
                simp at h
          · rw [if_neg h4] at h
            simp at h
            obtain ⟨ha, hb⟩ := h
            subst hb
            exact List.Sublist.refl _

/-- Stripping a leading caret commutes with appending after a stray `')'`. -/
theorem stripCaret_append_rparen (a b : List Char) :
    stripCaret (a ++ ')' :: b) = ((stripCaret a).1, (stripCaret a).2 ++ ')' :: b) := by
  cases a with
  | nil => simp [stripCaret]
  | cons c rest =>
    by_cases hc : c = '^' <;> simp [stripCaret, hc]

theorem elems_nil_extend (g : Nat) (ns : List Node) (lf : List Char) (g2 : Nat)
    (heq : elems [] g = .ok (ns, lf, g2)) :
    lf = [] ∧ ∀ (r : List Char), elems ([] ++ ')' :: r) g = .ok (ns, ')' :: r, g2) := by
  simp [elems] at heq
  obtain ⟨h1, h2, h3⟩ := heq
  subst h1
  subst h2
  subst h3
  refine ⟨rfl, ?_⟩
  intro r
  simp only [List.nil_append]
  rw [elems.eq_def]
  dsimp only
  rw [if_pos rfl]

theorem elems_cont_extend : ∀ (N : Nat),
    (∀ (xs : List Char), xs.length ≤ N → '(' ∉ xs → ')' ∉ xs →
      ∀ (g : Nat) (ns : List Node) (lf : List Char) (g2 : Nat),
      elems xs g = .ok (ns, lf, g2) →
      lf = [] ∧ ∀ (r : List Char), elems (xs ++ ')' :: r) g = .ok (ns, ')' :: r, g2)) ∧
    (∀ (n : Node) (xs : List Char), xs.length ≤ N → '(' ∉ xs → ')' ∉ xs →
      ∀ (g : Nat) (ns : List Node) (lf : List Char) (g2 : Nat),
      cont n xs g = .ok (ns, lf, g2) →
      lf = [] ∧ ∀ (r : List Char), cont n (xs ++ ')' :: r) g = .ok (ns, ')' :: r, g2)) := by
  intro N
  induction N with
  | zero =>
    constructor
    · intro xs hlen _ _ g ns lf g2 heq
      have hx : xs = [] := List.eq_nil_of_length_eq_zero (Nat.le_zero.mp hlen)
      subst hx
      exact elems_nil_extend g ns lf g2 heq
    · intro n xs hlen _ _ g ns lf g2 heq
      have hx : xs = [] := List.eq_nil_of_length_eq_zero (Nat.le_zero.mp hlen)
      subst hx
      rw [cont.eq_def] at heq
      split at heq
      · next msg haq => simp [applyQuant] at haq
      · next n2 r2 haq =>
        have haq2 : applyQuant n [] = .ok (n, []) := by simp [applyQuant]
        rw [haq2] at haq
        simp at haq
        obtain ⟨ha1, ha2⟩ := haq
        subst ha1
        subst ha2
        split at heq
        · next msg hel => simp [elems] at hel
        · next ns2 lo gid2 hel =>
          simp [elems] at hel
          obtain ⟨he1, he2, he3⟩ := hel
          subst he1
          subst he2
          subst he3
          simp at heq
          obtain ⟨h1, h2, h3⟩ := heq
          subst h1
          subst h2
          subst h3
          refine ⟨rfl, ?_⟩
          intro r
          simp only [List.nil_append]
          rw [cont.eq_def]
          have haq3 : applyQuant n (')' :: r) = .ok (n, ')' :: r) := by
            unfold applyQuant
            dsimp only
            rw [if_neg (by decide), if_neg (by decide), if_neg (by decide),
              if_neg (by decide)]
          split
          · next msg hbad =>
            rw [haq3] at hbad
            simp at hbad
          · next n2 r2 hok =>
            rw [haq3] at hok
            simp at hok
            obtain ⟨ho1, ho2⟩ := hok
            subst ho1
            subst ho2
            split
            · next msg hbad =>
              rw [elems.eq_def] at hbad
              dsimp only at hbad
              rw [if_pos rfl] at hbad
              simp at hbad
            · next ns2 lo2 gid2 hok2 =>
              rw [elems.eq_def] at hok2
              dsimp only at hok2
              rw [if_pos rfl] at hok2
              simp at hok2
              obtain ⟨ho1, ho2, ho3⟩ := hok2
              subst ho1
              subst ho2
              subst ho3
              rfl
  | succ N ih =>
    have E1 : ∀ (xs : List Char), xs.length ≤ N + 1 → '(' ∉ xs → ')' ∉ xs →
        ∀ (g : Nat) (ns : List Node) (lf : List Char) (g2 : Nat),
        elems xs g = .ok (ns, lf, g2) →
        lf = [] ∧ ∀ (r : List Char), elems (xs ++ ')' :: r) g = .ok (ns, ')' :: r, g2) := by
      intro xs hlen hpl hpr g ns lf g2 heq
      cases xs with
      | nil => exact elems_nil_extend g ns lf g2 heq
      | cons c rest =>
        simp only [List.length_cons] at hlen
        have hlenr : rest.length ≤ N := by omega
        have hcr : c ≠ ')' := fun hc => hpr (hc ▸ List.mem_cons_self _ _)
        have hcp : c ≠ '(' := fun hc => hpl (hc ▸ List.mem_cons_self _ _)
        have hplr : '(' ∉ rest := fun hm => hpl (List.mem_cons_of_mem _ hm)
        have hprr : ')' ∉ rest := fun hm => hpr (List.mem_cons_of_mem _ hm)
        rw [elems.eq_def] at heq
        dsimp only at heq
        rw [if_neg hcr] at heq
        by_cases h1 : c = '\\'
        · rw [if_pos h1] at heq
          cases rest with
          | nil => simp at heq
          | cons e rest2 =>
            dsimp only at heq
            have hC := ih.2 _ rest2 (by simp at hlenr; omega)
              (fun hm => hplr (List.mem_cons_of_mem _ hm))
              (fun hm => hprr (List.mem_cons_of_mem _ hm)) g ns lf g2 heq
            refine ⟨hC.1, ?_⟩
            intro r
            rw [List.cons_append, elems.eq_def]
            dsimp only
            rw [if_neg hcr, if_pos h1]
            simp only [List.cons_append]
            try dsimp only
            exact hC.2 r
        · rw [if_neg h1] at heq
          by_cases h2 : c = '['
          · rw [if_pos h2] at heq
            cases rest with
            | nil => simp at heq
            | cons c0 r0 =>
              dsimp only at heq
              by_cases hb : (c0 == '^') = true
              · rw [if_pos hb] at heq
                dsimp only [List.tail_cons] at heq
                split at heq
                · next c2 rest3 hcl =>
                  split at heq
                  · next hc2 =>
                    have hd : (c2 :: rest3).Sublist r0 := hcl ▸ List.dropWhile_sublist _
                    have hsub3 : rest3.Sublist (c0 :: r0) :=
                      ((((List.Sublist.refl rest3).cons c2).trans hd).cons c0)
                    have hC := ih.2 _ rest3 (Nat.le_trans hsub3.length_le hlenr)
                      (fun hm => hplr (hsub3.subset hm))
                      (fun hm => hprr (hsub3.subset hm)) g ns lf g2 heq
                    refine ⟨hC.1, ?_⟩
                    intro r
                    rw [List.cons_append, elems.eq_def]
                    dsimp only
                    rw [if_neg hcr, if_neg h1, if_pos h2]
                    simp only [List.cons_append]
                    try dsimp only
                    rw [if_pos hb]
                    dsimp only [List.tail_cons]
                    have hext := dropWhile_append_stop r0 (')' :: r) rest3 c2 hcl
                    split
                    · next c2x rest3x hclx =>
                      rw [hext.1] at hclx
                      injection hclx with hi1 hi2
                      subst hi1
                      subst hi2
                      rw [if_pos hc2, if_pos hb, hext.2]
                      exact hC.2 r
                    · next hbad =>
                      rw [hext.1] at hbad
                      simp at hbad
                  · next => simp at heq
                · next => simp at heq
              · rw [if_neg hb] at heq
                split at heq
                · next c2 rest3 hcl =>
                  split at heq
                  · next hc2 =>
                    have hd : (c2 :: rest3).Sublist (c0 :: r0) :=
                      hcl ▸ List.dropWhile_sublist _
                    have hsub3 : rest3.Sublist (c0 :: r0) :=
                      ((List.Sublist.refl rest3).cons c2).trans hd
                    have hC := ih.2 _ rest3 (Nat.le_trans hsub3.length_le hlenr)
                      (fun hm => hplr (hsub3.subset hm))
                      (fun hm => hprr (hsub3.subset hm)) g ns lf g2 heq
                    refine ⟨hC.1, ?_⟩
                    intro r
                    rw [List.cons_append, elems.eq_def]
                    dsimp only
                    rw [if_neg hcr, if_neg h1, if_pos h2]
                    simp only [List.cons_append]
                    try dsimp only
                    rw [if_neg hb]
                    have hext := dropWhile_append_stop (c0 :: r0) (')' :: r) rest3 c2 hcl
                    have hext1 := hext.1
                    have hext2 := hext.2
                    simp only [List.cons_append] at hext1 hext2
                    split
                    · next c2x rest3x hclx =>
                      rw [hext1] at hclx
                      injection hclx with hi1 hi2
                      subst hi1
                      subst hi2
                      rw [if_pos hc2, if_neg hb, hext2]
                      exact hC.2 r
                    · next hbad =>
                      rw [hext1] at hbad
                      simp at hbad
                  · next => simp at heq
                · next => simp at heq
          · rw [if_neg h2, if_neg hcp] at heq
            by_cases h3 : c = '.'
            · rw [if_pos h3] at heq
              have hC := ih.2 _ rest hlenr hplr hprr g ns lf g2 heq
              refine ⟨hC.1, ?_⟩
              intro r
              rw [List.cons_append, elems.eq_def]
              dsimp only
              rw [if_neg hcr, if_neg h1, if_neg h2, if_neg hcp, if_pos h3]
              exact hC.2 r
            · rw [if_neg h3] at heq
              have hC := ih.2 _ rest hlenr hplr hprr g ns lf g2 heq
              refine ⟨hC.1, ?_⟩
              intro r
              rw [List.cons_append, elems.eq_def]
              dsimp only
              rw [if_neg hcr, if_neg h1, if_neg h2, if_neg hcp, if_neg h3]
              exact hC.2 r
    have C1 : ∀ (n : Node) (xs : List Char), xs.length ≤ N + 1 → '(' ∉ xs → ')' ∉ xs →
        ∀ (g : Nat) (ns : List Node) (lf : List Char) (g2 : Nat),
        cont n xs g = .ok (ns, lf, g2) →
        lf = [] ∧ ∀ (r : List Char), cont n (xs ++ ')' :: r) g = .ok (ns, ')' :: r, g2) := by
      intro n xs hlen hpl hpr g ns lf g2 heq
      rw [cont.eq_def] at heq
      split at heq
      · simp at heq
      · next n2 r2 haq =>
        split at heq
        · simp at heq
        · next ns2 lo gid2 hel =>
          simp at heq
          obtain ⟨h1, h2, h3⟩ := heq
          subst h1
          subst h2
          subst h3
          have hsub := applyQuant_sublist n xs n2 r2 haq
          have hE := E1 r2 (Nat.le_trans hsub.length_le hlen)
            (fun hm => hpl (hsub.subset hm)) (fun hm => hpr (hsub.subset hm))
            g ns2 lo gid2 hel
          refine ⟨hE.1, ?_⟩
          intro r
          rw [cont.eq_def]
          split
          · next msg hbad =>
            rw [applyQuant_extend n xs n2 r2 r haq] at hbad
            simp at hbad
          · next n2x r2x hok =>
            rw [applyQuant_extend n xs n2 r2 r haq] at hok
            simp at hok
            obtain ⟨ho1, ho2⟩ := hok
            subst ho1
            subst ho2
            rw [hE.2 r]
    exact ⟨E1, C1⟩

/-- Specialisation of the joint extension lemma to `elems`. -/
theorem elems_paren_free_extend (xs : List Char) (hpl : '(' ∉ xs) (hpr : ')' ∉ xs)
    (g : Nat) (ns : List Node) (lf : List Char) (g2 : Nat)
    (heq : elems xs g = .ok (ns, lf, g2)) :
    lf = [] ∧ ∀ (r : List Char), elems (xs ++ ')' :: r) g = .ok (ns, ')' :: r, g2) :=
  (elems_cont_extend xs.length).1 xs (Nat.le_refl _) hpl hpr g ns lf g2 heq

/-- The continuation applied to an exhausted remainder just emits the node. -/
theorem cont_nil (n : Node) (g : Nat) : cont n [] g = .ok ([n], [], g) := by
  rw [cont.eq_def]
  split
  · next msg haq => simp [applyQuant] at haq
  · next n2 r2 haq =>
    have haq2 : applyQuant n [] = .ok (n, []) := by simp [applyQuant]
    rw [haq2] at haq
    simp at haq
    obtain ⟨h1, h2⟩ := haq
    subst h1
    subst h2
    split
    · next msg hel => simp [elems] at hel
    · next ns2 lo gid2 hel =>
      simp [elems] at hel
      obtain ⟨h1, h2, h3⟩ := hel
      subst h1
      subst h2
      subst h3
      rfl

/-- C1: the parser does NOT reject an unclosed group.  Whenever the body
after the unmatched `'('` contains no `')'` (and no trailing unescaped
`'$'` is stripped), `collectBody` silently swallows the whole remainder,
so the pattern parses to a single capture group holding the body's
alternatives — no parse error is produced.  This refutes the claim that an
unclosed group is surfaced as a parse error. -/
theorem C1_unclosed_group_accepted (q : List Char) (brs : List (List Node)) (g2 : Nat)
    (hq : ')' ∉ q) (hd : ('(' :: q).getLast? ≠ some '$')
    (hb : branchesGo (splitTop q) 1 = .ok (brs, g2)) :
    parse (String.mk ('(' :: q)) = .ok ([.Cap 1 brs], false, false) := by
  have hsc : stripCaret ('(' :: q) = (false, '(' :: q) := by
    unfold stripCaret
    dsimp only
    rw [if_neg (by decide)]
  have hsd : stripDollar ('(' :: q) = (false, '(' :: q) := stripDollar_of_getLast _ hd
  have hel : elems ('(' :: q) 0 = .ok ([.Cap 1 brs], [], g2) := by
    rw [elems.eq_def]
    dsimp only
    rw [if_neg (by decide), if_neg (by decide), if_neg (by decide), if_pos rfl]
    rw [collectBody_no_rparen q 0 hq]
    dsimp only
    rw [show (0 : Nat) + 1 = 1 from rfl, hb]
    dsimp only
    exact cont_nil _ _
  unfold parse
  dsimp only
  rw [hsc]
  dsimp only
  rw [hsd]
  dsimp only
  rw [hel]

/-- C1 counterexample: the unclosed group pattern `"(a"` is accepted by the
parser, producing a capture group around `a`, rather than a parse error. -/
theorem C1_cex_unclosed_group :
    parse ("(a") = .ok ([.Cap 1 [[.Lit 'a']]], false, false) := by
  simp [parse, stripCaret, stripDollar, elems, cont, branchesGo, collectBody, splitTop,
    splitTopAux, applyQuant]

/-- Witness for C1 at the concrete body `"a"`. -/
theorem C1_unclosed_group_accepted_witness :
    ')' ∉ ['a'] ∧ ('(' :: ['a']).getLast? ≠ some '$' ∧
      parse (String.mk ('(' :: ['a'])) = .ok ([.Cap 1 [[.Lit 'a']]], false, false) :=
  ⟨by decide, by decide,
    C1_unclosed_group_accepted ['a'] [[.Lit 'a']] 1 (by decide) (by decide)
      (by simp [elems, cont, branchesGo, splitTop, splitTopAux, applyQuant])⟩

theorem stripCaret_sublist (l : List Char) : (stripCaret l).2.Sublist l := by
  unfold stripCaret
  cases l with
  | nil => exact List.Sublist.refl _
  | cons c rest =>
    dsimp only
    by_cases hc : c = '^'
    · rw [if_pos hc]
      exact (List.Sublist.refl rest).cons _
    · rw [if_neg hc]

/-- C10: an unmatched top-level `')'` silently truncates the pattern.  If
`a` is parenthesis-free, the combined pattern does not end in an unescaped
`'$'`, and `a` parses (with no end anchor), then `a ++ ')' :: b` parses to
exactly the nodes of `a` — `')' :: b` is discarded — and matching any
input against the combined pattern gives the same result as against `a`
alone. -/
theorem C10_stray_rparen_truncates (a b : List Char) (ns : List Node) (sa : Bool)
    (hpl : '(' ∉ a) (hpr : ')' ∉ a)
    (hd : (a ++ ')' :: b).getLast? ≠ some '$')
    (hp : parse (String.mk a) = .ok (ns, sa, false)) :
    parse (String.mk (a ++ ')' :: b)) = .ok (ns, sa, false) ∧
    ∀ (f : Nat) (s : String),
      is_match f s (String.mk (a ++ ')' :: b)) = is_match f s (String.mk a) := by
  have hp0 := hp
  unfold parse at hp
  dsimp only at hp
  split at hp
  · simp at hp
  · next ns2 lf2 gid2 hel2 =>
    simp at hp
    obtain ⟨h1, h2, h3⟩ := hp
    subst h1
    subst h2
    have hsd2 : (stripDollar (stripCaret a).2).2 = (stripCaret a).2 :=
      stripDollar_false _ h3
    rw [hsd2] at hel2
    have hsub := stripCaret_sublist a
    have hext := elems_paren_free_extend (stripCaret a).2
      (fun hm => hpl (hsub.subset hm)) (fun hm => hpr (hsub.subset hm))
      0 ns2 lf2 gid2 hel2
    have hgl : ((stripCaret a).2 ++ ')' :: b).getLast? ≠ some '$' := by
      rw [getLast_append_cons]
      rw [getLast_append_cons] at hd
      exact hd
    have hsdA : stripDollar ((stripCaret a).2 ++ ')' :: b) =
        (false, (stripCaret a).2 ++ ')' :: b) := stripDollar_of_getLast _ hgl
    have hpc : parse (String.mk (a ++ ')' :: b)) = .ok (ns2, (stripCaret a).1, false) := by
      unfold parse
      dsimp only
      rw [stripCaret_append_rparen a b]
      dsimp only
      rw [hsdA]
      dsimp only
      rw [hext.2 b]
    refine ⟨hpc, ?_⟩
    intro f s
    unfold is_match
    rw [hp0, hpc]

/-- C10 counterexample: with `a = "x$"` and `b = ""` (both
parenthesis-free), the stray `')'` does NOT reduce to matching `a`: the
`'$'` of `a` is an end anchor on its own but a literal inside the combined
pattern, so the two patterns disagree on input `"x"`. -/
theorem C10_cex_end_anchor_lost :
    is_match 100 "x" ("x$)") = .found false ∧ is_match 100 "x" ("x$") = .found true := by
  constructor
  · have h1 : parse ("x$)") = .ok ([.Lit 'x', .Lit '$'], false, false) := by
      simp [parse, stripCaret, stripDollar, elems, cont, branchesGo, collectBody,
        splitTop, splitTopAux, applyQuant]
    unfold is_match
    rw [h1]
    decide
  · have h1 : parse ("x$") = .ok ([.Lit 'x'], false, true) := by
      simp [parse, stripCaret, stripDollar, elems, cont, branchesGo, collectBody,
        splitTop, splitTopAux, applyQuant]
    unfold is_match
    rw [h1]
    decide

/-- Witness for C10 at `a = "x"`, `b = "y"`, input `"ax"`, fuel 7. -/
theorem C10_stray_rparen_truncates_witness :
    '(' ∉ ['x'] ∧ ')' ∉ ['x'] ∧ (['x'] ++ ')' :: ['y']).getLast? ≠ some '$' ∧
      parse (String.mk ['x']) = .ok ([.Lit 'x'], false, false) ∧
      is_match 7 "ax" (String.mk (['x'] ++ ')' :: ['y'])) =
        is_match 7 "ax" (String.mk ['x']) :=
  ⟨by decide, by decide, by decide,
    by simp [parse, stripCaret, stripDollar, elems, cont, branchesGo, collectBody,
      splitTop, splitTopAux, applyQuant],
    (C10_stray_rparen_truncates ['x'] ['y'] [.Lit 'x'] false (by decide) (by decide)
      (by decide)
      (by simp [parse, stripCaret, stripDollar, elems, cont, branchesGo, collectBody,
        splitTop, splitTopAux, applyQuant])).2 7 "ax"⟩

/-- Characterisation of the start-offset loop: provided no branch runs out
of fuel or crashes, `tryStarts` reports a match exactly when some admissible
start offset yields a (greedy, single) `match_from` result whose end passes
the end-anchor test.  The backtracking never revisits an offset whose
greedy result fails the end-anchor check. -/
theorem tryStarts_found_iff (f : Nat) (ns : List Node) (cs : List Char) (endA : Bool) :
    ∀ (starts : List Nat), tryStarts f starts ns cs endA ≠ .timeout →
    tryStarts f starts ns cs endA ≠ .crash →
    (tryStarts f starts ns cs endA = .found true ↔
      ∃ st, st ∈ starts ∧ ∃ e c, match_from f st ns cs [] = .ok e c ∧
        (endA = true → e = cs.length)) := by
  intro starts
  induction starts with
  | nil =>
    intro _ _
    simp [tryStarts]
  | cons st rest ih =>
    intro hnt hnc
    cases hm : match_from f st ns cs [] with
    | timeout =>
      simp only [tryStarts, hm] at hnt
      exact absurd rfl hnt
    | crash =>
      simp only [tryStarts, hm] at hnc
      exact absurd rfl hnc
    | fail =>
      simp only [tryStarts, hm] at hnt hnc ⊢
      rw [ih hnt hnc]
      constructor
      · rintro ⟨st2, hmem, he⟩
        exact ⟨st2, List.mem_cons_of_mem _ hmem, he⟩
      · rintro ⟨st2, hmem, e, c, hok, hcond⟩
        rcases List.mem_cons.mp hmem with h | h
        · subst h
          rw [hm] at hok
          exact absurd hok (by simp)
        · exact ⟨st2, h, e, c, hok, hcond⟩
    | ok e c =>
      simp only [tryStarts, hm] at hnt hnc ⊢
      cases endA with
      | false =>
        constructor
        · intro _
          exact ⟨st, List.mem_cons_self _ _, e, c, hm, by simp⟩
        · intro _
          trivial
      | true =>
        rw [if_pos rfl] at hnt hnc ⊢
        by_cases hel : e = cs.length
        · rw [if_pos hel] at hnt hnc ⊢
          constructor
          · intro _
            exact ⟨st, List.mem_cons_self _ _, e, c, hm, fun _ => hel⟩
          · intro _
            rfl
        · rw [if_neg hel] at hnt hnc ⊢
          rw [ih hnt hnc]
          constructor
          · rintro ⟨st2, hmem, he⟩
            exact ⟨st2, List.mem_cons_of_mem _ hmem, he⟩
          · rintro ⟨st2, hmem, e2, c2, hok, hcond⟩
            rcases List.mem_cons.mp hmem with h | h
            · subst h
              rw [hm] at hok
              have he2 : e2 = e := by
                injection hok with h1 h2
                exact h1.symm
              subst he2
              exact absurd (hcond rfl) hel
            · exact ⟨st2, h, e2, c2, hok, hcond⟩

/-- C3 (amended): the driver tries the admissible start offsets in
ascending order — `[0]` when start-anchored, else `0..=len(input)` — and
reports a match exactly when some admissible start yields a greedy
`match_from` result whose end equals `len(input)` when end-anchored (any
end otherwise).  The original claim's double-anchor reading "the whole of
`s` matches `p`" fails, because the end-anchor test is applied only to the
single greedy result of each start, with no backtracking into
alternatives (see the counterexample `^(a|ab)$` against `"ab"`). -/
theorem C3_anchor_driver_characterization (f : Nat) (s p : String) (ns : List Node)
    (sa ea : Bool) (hp : parse p = .ok (ns, sa, ea))
    (hnt : is_match f s p ≠ .timeout) (hnc : is_match f s p ≠ .crash) :
    is_match f s p = .found true ↔
      ∃ st, st ∈ (if sa = true then [0] else List.range (s.data.length + 1)) ∧
        ∃ e c, match_from f st ns s.data [] = .ok e c ∧ (ea = true → e = s.data.length) := by
  unfold is_match at hnt hnc ⊢
  rw [hp] at hnt hnc ⊢
  exact tryStarts_found_iff f ns s.data ea _ hnt hnc

/-- C3 counterexample: the second alternative of `(a|ab)` matches the whole
of `"ab"`, yet the doubly-anchored `is_match` is false — the end anchor is
checked only against the greedy first-branch result, with no backtracking;
reordering the alternatives flips the answer. -/
theorem C3_cex_anchor_no_backtrack :
    is_match 50 "ab" ("^(a|ab)$") = .found false ∧
    is_match 50 "ab" ("^(ab|a)$") = .found true ∧
    parse ("^(a|ab)$") = .ok ([.Cap 1 [[.Lit 'a'], [.Lit 'a', .Lit 'b']]], true, true) ∧
    match_from 50 0 [.Lit 'a', .Lit 'b'] ("ab").data [] = .ok 2 [] := by
  have hp1 : parse ("^(a|ab)$") =
      .ok ([.Cap 1 [[.Lit 'a'], [.Lit 'a', .Lit 'b']]], true, true) := by
    simp [parse, stripCaret, stripDollar, elems, cont, branchesGo, collectBody, splitTop,
      splitTopAux, applyQuant]
  have hp2 : parse ("^(ab|a)$") =
      .ok ([.Cap 1 [[.Lit 'a', .Lit 'b'], [.Lit 'a']]], true, true) := by
    simp [parse, stripCaret, stripDollar, elems, cont, branchesGo, collectBody, splitTop,
      splitTopAux, applyQuant]
  refine ⟨?_, ?_, hp1, by decide⟩
  · unfold is_match
    rw [hp1]
    decide
  · unfold is_match
    rw [hp2]
    decide

/-- Witness for C3 at fuel 20, input `"a"`, pattern `"^a$"`. -/
theorem C3_anchor_driver_characterization_witness :
    parse ("^a$") = .ok ([.Lit 'a'], true, true) ∧
    is_match 20 "a" ("^a$") ≠ .timeout ∧
    (is_match 20 "a" ("^a$") = .found true ↔
      ∃ st, st ∈ (if (true : Bool) = true then [0]
          else List.range (("a" : String).data.length + 1)) ∧
        ∃ e c, match_from 20 st [.Lit 'a'] ("a" : String).data [] = .ok e c ∧
          ((true : Bool) = true → e = ("a" : String).data.length)) := by
  have hp : parse ("^a$") = .ok ([.Lit 'a'], true, true) := by
    simp [parse, stripCaret, stripDollar, elems, cont, branchesGo, collectBody, splitTop,
      splitTopAux, applyQuant]
  have hv : is_match 20 "a" ("^a$") = .found true := by
    unfold is_match
    rw [hp]
    decide
  exact ⟨hp, by rw [hv]; simp,
    C3_anchor_driver_characterization 20 "a" ("^a$") [.Lit 'a'] true true hp
      (by rw [hv]; simp) (by rw [hv]; simp)⟩

theorem splitInc_eq_nil : ∀ (l : List Char), splitInc l = [] → l = [] := by
  intro l h
  cases l with
  | nil => rfl
  | cons c rest =>
    rw [splitInc.eq_def] at h
    dsimp only at h
    by_cases hc : c = '\n'
    · rw [if_pos hc] at h
      simp at h
    · rw [if_neg hc] at h
      cases hs : splitInc rest with
      | nil =>
        rw [hs] at h
        simp at h
      | cons s ss =>
        rw [hs] at h
        simp at h

/-- `split_inclusive` segments cover the whole content: the sum of the
segment lengths is the content length (so the tail block of
`grep_content` is dead code). -/
theorem splitInc_sum : ∀ (l : List Char), ((splitInc l).map List.length).sum = l.length := by
  intro l
  induction l with
  | nil => rfl
  | cons c rest ih =>
    rw [splitInc.eq_def]
    dsimp only
    by_cases hc : c = '\n'
    · rw [if_pos hc]
      simp only [List.map_cons, List.sum_cons, List.length_cons, List.length_nil]
      omega
    · rw [if_neg hc]
      cases hs : splitInc rest with
      | nil =>
        have hr : rest = [] := splitInc_eq_nil rest hs
        subst hr
        simp
      | cons s ss =>
        rw [hs] at ih
        dsimp only
        simp only [List.map_cons, List.sum_cons, List.length_cons] at ih ⊢
        omega

/-- The segment loop of `grep_content` emits exactly the formatted versions
of the matching segments, in input order, and the "any" flag is set exactly
when the output is non-empty. -/
theorem grepGo_filter (fuel : Nat) (pat : String) (pfx : Option String) :
    ∀ (segs : List (List Char)) (outs : List String) (a : Bool),
    grepGo fuel pat pfx segs = .ok outs a →
    outs = ((segs.filter (fun seg =>
        decide (is_match fuel (String.mk (dropLineEnds seg)) pat = .found true))).map
        (print_with_pfx pfx)) ∧ (a = true ↔ outs ≠ []) := by
  intro segs
  induction segs with
  | nil =>
    intro outs a h
    simp [grepGo] at h
    obtain ⟨h1, h2⟩ := h
    subst h1
    subst h2
    simp
  | cons seg rest ih =>
    intro outs a h
    rw [grepGo.eq_def] at h
    dsimp only at h
    cases him : is_match fuel (String.mk (dropLineEnds seg)) pat with
    | perr =>
      rw [him] at h
      simp at h
    | timeout =>
      rw [him] at h
      simp at h
    | crash =>
      rw [him] at h
      simp at h
    | found b =>
      rw [him] at h
      dsimp only at h
      cases hrest : grepGo fuel pat pfx rest with
      | perr =>
        rw [hrest] at h
        simp at h
      | timeout =>
        rw [hrest] at h
        simp at h
      | crash =>
        rw [hrest] at h
        simp at h
      | ok outs2 a2 =>
        rw [hrest] at h
        dsimp only at h
        obtain ⟨ho, ha⟩ := ih outs2 a2 hrest
        cases b with
        | true =>
          rw [if_pos rfl] at h
          simp at h
          obtain ⟨h1, h2⟩ := h
          subst h1
          subst h2
          constructor
          · simp [List.filter_cons, him, ho]
          · simp
        | false =>
          rw [if_neg (by simp)] at h
          simp at h
          obtain ⟨h1, h2⟩ := h
          subst h1
          subst h2
          constructor
          · simp [List.filter_cons, him, ho]
          · exact ha

/-- C9 (amended): the scanner emits exactly the matching segments in input
order, each prefixed by `label:` when a label is provided; a segment that
already ends in `'\n'` is emitted verbatim, but a final segment lacking a
trailing newline has a `'\n'` APPENDED (via `println!` / the explicit
`"\n"` format) — it is not emitted terminator-free as the original claim
states. -/
theorem C9_scanner_emission :
    (∀ (fuel : Nat) (content pat : String) (pfx : Option String) (outs : List String)
      (a : Bool), grep_content fuel content pat pfx = .ok outs a →
      outs = (((splitInc content.data).filter (fun seg =>
          decide (is_match fuel (String.mk (dropLineEnds seg)) pat = .found true))).map
          (print_with_pfx pfx)) ∧ (a = true ↔ outs ≠ [])) ∧
    (∀ (p : String) (seg : List Char),
      (seg.getLast? = some '\n' →
        print_with_pfx (some p) seg = p ++ ":" ++ String.mk seg ∧
        print_with_pfx none seg = String.mk seg) ∧
      (seg.getLast? ≠ some '\n' →
        print_with_pfx (some p) seg = p ++ ":" ++ String.mk seg ++ "\n" ∧
        print_with_pfx none seg = String.mk seg ++ "\n")) := by
  constructor
  · intro fuel content pat pfx outs a h
    unfold grep_content at h
    dsimp only at h
    cases hg : grepGo fuel pat pfx (splitInc content.data) with
    | perr =>
      rw [hg] at h
      simp at h
    | timeout =>
      rw [hg] at h
      simp at h
    | crash =>
      rw [hg] at h
      simp at h
    | ok outs2 a2 =>
      rw [hg] at h
      dsimp only at h
      rw [splitInc_sum content.data] at h
      rw [if_neg (Nat.lt_irrefl _)] at h
      simp at h
      obtain ⟨h1, h2⟩ := h
      subst h1
      subst h2
      exact grepGo_filter fuel pat pfx _ outs2 a2 hg
  · intro p seg
    constructor
    · intro hl
      constructor
      · unfold print_with_pfx
        dsimp only
        rw [if_pos hl]
      · unfold print_with_pfx
        dsimp only
        rw [if_pos hl]
    · intro hl
      constructor
      · unfold print_with_pfx
        dsimp only
        rw [if_neg hl]
      · unfold print_with_pfx
        dsimp only
        rw [if_neg hl]

/-- C9 counterexample: the content `"a"` is a single final segment with no
trailing newline and it matches the pattern `"a"`, yet the scanner emits
`"a\n"` — a terminator has been added, contradicting "emitted without a
terminator". -/
theorem C9_cex_newline_appended :
    grep_content 30 "a" "a" none = .ok ["a\n"] true ∧ ("a\n" : String) ≠ ("a" : String) := by
  have hp : parse ("a") = .ok ([.Lit 'a'], false, false) := by
    simp [parse, stripCaret, stripDollar, elems, cont, branchesGo, collectBody, splitTop,
      splitTopAux, applyQuant]
  have him : is_match 30 (String.mk (dropLineEnds ['a'])) ("a") = .found true := by
    rw [show String.mk (dropLineEnds ['a']) = ("a" : String) from by decide]
    unfold is_match
    rw [hp]
    decide
  have hgo : grepGo 30 "a" none [['a']] = .ok ["a\n"] true := by
    rw [grepGo.eq_def]
    dsimp only
    rw [him]
    dsimp only
    rw [show grepGo 30 "a" none [] = .ok [] false from rfl]
    dsimp only
    rw [if_pos rfl]
    decide
  constructor
  · unfold grep_content
    dsimp only
    rw [show splitInc ("a" : String).data = [['a']] from by decide]
    rw [hgo]
    dsimp only
    rw [if_neg (by decide : ¬((([['a']] : List (List Char)).map List.length).sum <
      ("a" : String).data.length))]
  · decide

/-- Witness for C9: fuel 30, content `"a"`, pattern `"a"`, label `"L"`. -/
theorem C9_scanner_emission_witness :
    grep_content 30 "a" "a" (some "L") = .ok ["L:a\n"] true ∧
    (["L:a\n"] = (((splitInc ("a" : String).data).filter (fun seg =>
        decide (is_match 30 (String.mk (dropLineEnds seg)) ("a") = .found true))).map
        (print_with_pfx (some "L"))) ∧ (true = true ↔ (["L:a\n"] : List String) ≠ [])) := by
  have hp : parse ("a") = .ok ([.Lit 'a'], false, false) := by
    simp [parse, stripCaret, stripDollar, elems, cont, branchesGo, collectBody, splitTop,
      splitTopAux, applyQuant]
  have him : is_match 30 (String.mk (dropLineEnds ['a'])) ("a") = .found true := by
    rw [show String.mk (dropLineEnds ['a']) = ("a" : String) from by decide]
    unfold is_match
    rw [hp]
    decide
  have hgo : grepGo 30 "a" (some "L") [['a']] = .ok ["L:a\n"] true := by
    rw [grepGo.eq_def]
    dsimp only
    rw [him]
    dsimp only
    rw [show grepGo 30 "a" (some "L") [] = .ok [] false from rfl]
    dsimp only
    rw [if_pos rfl]
    decide
  have hgc : grep_content 30 "a" "a" (some "L") = .ok ["L:a\n"] true := by
    unfold grep_content
    dsimp only
    rw [show splitInc ("a" : String).data = [['a']] from by decide]
    rw [hgo]
    dsimp only
    rw [if_neg (by decide : ¬((([['a']] : List (List Char)).map List.length).sum <
      ("a" : String).data.length))]
  exact ⟨hgc, C9_scanner_emission.1 30 "a" "a" (some "L") ["L:a\n"] true hgc⟩

/-- Equality of matcher results up to the capture table. -/
def endEq : MRes → MRes → Prop
  | .ok e _, .ok e2 _ => e = e2
  | .timeout, .timeout => True
  | .crash, .crash => True
  | .fail, .fail => True
  | _, _ => False

theorem endEq_refl : ∀ (r : MRes), endEq r r := by
  intro r
  cases r <;> simp [endEq]

theorem endEq_cases : ∀ (l r : MRes), endEq l r →
    (l = .timeout ∧ r = .timeout) ∨ (l = .crash ∧ r = .crash) ∨
    (l = .fail ∧ r = .fail) ∨ ∃ e c c2, l = .ok e c ∧ r = .ok e c2 := by
  intro l r h
  cases l with
  | timeout =>
    cases r with
    | timeout => exact Or.inl ⟨rfl, rfl⟩
    | crash => exact False.elim h
    | fail => exact False.elim h
    | ok e c => exact False.elim h
  | crash =>
    cases r with
    | crash => exact Or.inr (Or.inl ⟨rfl, rfl⟩)
    | timeout => exact False.elim h
    | fail => exact False.elim h
    | ok e c => exact False.elim h
  | fail =>
    cases r with
    | fail => exact Or.inr (Or.inr (Or.inl ⟨rfl, rfl⟩))
    | timeout => exact False.elim h
    | crash => exact False.elim h
    | ok e c => exact False.elim h
  | ok e c =>
    cases r with
    | ok e2 c2 =>
      have he : e = e2 := h
      subst he
      exact Or.inr (Or.inr (Or.inr ⟨e, c, c2, rfl, rfl⟩))
    | timeout => exact False.elim h
    | crash => exact False.elim h
    | fail => exact False.elim h

/-- Appending a final `CapEnd` marker to the pending node list changes the
run only by the final capture write: the outcome is the same up to captures,
except that the suffixed run spends two extra fuel units at the very end and
may therefore time out where the plain run succeeds.  Proved for all three
tail-carrying request forms by induction on the fuel. -/
theorem step_capend_suffix : ∀ (f : Nat),
    (∀ (pos : Nat) (zs : List Node) (cs : List Char) (caps : Caps) (sl st : Nat),
      st ≤ pos → pos ≤ cs.length →
      step f (.m pos (zs ++ [.CapEnd sl st]) cs caps) = .timeout ∨
      endEq (step f (.m pos (zs ++ [.CapEnd sl st]) cs caps))
        (step f (.m pos zs cs caps))) ∧
    (∀ (pos : Nat) (inner : Node) (rest : List Node) (cs : List Char) (caps : Caps)
      (sl st : Nat), st ≤ pos → pos ≤ cs.length →
      step f (.mo pos inner (rest ++ [.CapEnd sl st]) cs caps) = .timeout ∨
      endEq (step f (.mo pos inner (rest ++ [.CapEnd sl st]) cs caps))
        (step f (.mo pos inner rest cs caps))) ∧
    (∀ (brs : List (List Node)) (slot pos : Nat) (tail : List Node) (cs : List Char)
      (caps : Caps) (sl st : Nat), st ≤ pos → pos ≤ cs.length →
      step f (.tb brs slot pos (tail ++ [.CapEnd sl st]) cs caps) = .timeout ∨
      endEq (step f (.tb brs slot pos (tail ++ [.CapEnd sl st]) cs caps))
        (step f (.tb brs slot pos tail cs caps))) := by
  intro f
  induction f with
  | zero =>
    refine ⟨?_, ?_, ?_⟩ <;> (intros; left; rfl)
  | succ f ih =>
    obtain ⟨ihm, ihmo, ihtb⟩ := ih
    have M : ∀ (pos : Nat) (zs : List Node) (cs : List Char) (caps : Caps) (sl st : Nat),
        st ≤ pos → pos ≤ cs.length →
        step (f + 1) (.m pos (zs ++ [.CapEnd sl st]) cs caps) = .timeout ∨
        endEq (step (f + 1) (.m pos (zs ++ [.CapEnd sl st]) cs caps))
          (step (f + 1) (.m pos zs cs caps)) := by
      intro pos zs cs caps sl st hst hpos
      cases zs with
      | nil =>
        simp only [List.nil_append]
        rw [step_m_capend, if_pos ⟨hst, hpos⟩, step_m_nil]
        cases f with
        | zero => left; rfl
        | succ f2 =>
          right
          rw [step_m_nil]
          simp [endEq]
      | cons head rest =>
        simp only [List.cons_append]
        cases head with
        | Plus inner =>
          rw [step_m_plus, step_m_plus]
          exact ihmo pos inner rest cs caps sl st hst hpos
        | Star inner =>
          rw [step_m_star, step_m_star]
          rcases ihmo pos inner rest cs caps sl st hst hpos with hT | hE
          · rw [hT]
            left
            rfl
          · rcases endEq_cases _ _ hE with ⟨hL, hR⟩ | ⟨hL, hR⟩ | ⟨hL, hR⟩ |
              ⟨e, c1, c2, hL, hR⟩
            · rw [hL]
              left
              rfl
            · rw [hL, hR]
              right
              simp [endEq]
            · rw [hL, hR]
              exact ihm pos rest cs caps sl st hst hpos
            · rw [hL, hR]
              right
              simp [endEq]
        | Rep inner count =>
          rw [step_m_rep, step_m_rep]
          cases hrp : step f (.rp count pos inner cs caps) with
          | timeout => left; rfl
          | crash => right; simp [endEq]
          | fail => right; simp [endEq]
          | ok p c2 =>
            have hb := step_ok_le f _ _ _ hrp
            simp [reqPos, reqCs] at hb
            exact ihm p rest cs c2 sl st (by omega) (hb.2 hpos)
        | Opt inner =>
          rw [step_m_opt, step_m_opt]
          cases hin : step f (.m pos [inner] cs caps) with
          | timeout => left; rfl
          | crash => right; simp [endEq]
          | fail => exact ihm pos rest cs caps sl st hst hpos
          | ok p1 c1 =>
            have hb := step_ok_le f _ _ _ hin
            simp [reqPos, reqCs] at hb
            dsimp only
            rcases ihm p1 rest cs c1 sl st (by omega) (hb.2 hpos) with hT | hE
            · rw [hT]
              left
              rfl
            · rcases endEq_cases _ _ hE with ⟨hL, hR⟩ | ⟨hL, hR⟩ | ⟨hL, hR⟩ |
                ⟨e, c2, c3, hL, hR⟩
              · rw [hL]
                left
                rfl
              · rw [hL, hR]
                right
                simp [endEq]
              · rw [hL, hR]
                exact ihm pos rest cs caps sl st hst hpos
              · rw [hL, hR]
                right
                simp [endEq]
        | Lit ch =>
          rw [step_m_lit, step_m_lit]
          by_cases hg : pos < cs.length ∧ cs.getD pos ' ' = ch
          · rw [if_pos hg, if_pos hg]
            exact ihm (pos + 1) rest cs caps sl st (by omega) (by omega)
          · rw [if_neg hg, if_neg hg]
            right
            simp [endEq]
        | Digit =>
          rw [step_m_digit, step_m_digit]
          by_cases hg : pos < cs.length ∧ (cs.getD pos ' ').isDigit
          · rw [if_pos hg, if_pos hg]
            have h1 := hg.1
            exact ihm (pos + 1) rest cs caps sl st (by omega) (by omega)
          · rw [if_neg hg, if_neg hg]
            right
            simp [endEq]
        | Word =>
          rw [step_m_word, step_m_word]
          by_cases hg : pos < cs.length ∧ ((cs.getD pos ' ').isAlphanum ∨ cs.getD pos ' ' = '_')
          · rw [if_pos hg, if_pos hg]
            have h1 := hg.1
            exact ihm (pos + 1) rest cs caps sl st (by omega) (by omega)
          · rw [if_neg hg, if_neg hg]
            right
            simp [endEq]
        | Any =>
          rw [step_m_any, step_m_any]
          by_cases hg : pos < cs.length
          · rw [if_pos hg, if_pos hg]
            exact ihm (pos + 1) rest cs caps sl st (by omega) (by omega)
          · rw [if_neg hg, if_neg hg]
            right
            simp [endEq]
        | Pos sset =>
          rw [step_m_posc, step_m_posc]
          by_cases hg : pos < cs.length ∧ cs.getD pos ' ' ∈ sset
          · rw [if_pos hg, if_pos hg]
            have h1 := hg.1
            exact ihm (pos + 1) rest cs caps sl st (by omega) (by omega)
          · rw [if_neg hg, if_neg hg]
            right
            simp [endEq]
        | Neg sset =>
          rw [step_m_negc, step_m_negc]
          by_cases hg : pos < cs.length ∧ cs.getD pos ' ' ∉ sset
          · rw [if_pos hg, if_pos hg]
            have h1 := hg.1
            exact ihm (pos + 1) rest cs caps sl st (by omega) (by omega)
          · rw [if_neg hg, if_neg hg]
            right
            simp [endEq]
        | Cap id brs =>
          rw [step_m_cap, step_m_cap]
          exact ihtb brs (id - 1) pos rest cs caps sl st hst hpos
        | CapEnd slot2 start2 =>
          rw [step_m_capend, step_m_capend]
          by_cases hg : start2 ≤ pos ∧ pos ≤ cs.length
          · rw [if_pos hg, if_pos hg]
            exact ihm pos rest cs _ sl st hst hpos
          · rw [if_neg hg, if_neg hg]
            right
            simp [endEq]
        | Ref n =>
          rw [step_m_ref, step_m_ref]
          cases hc : caps.getD (n - 1) none with
          | none => right; simp [endEq]
          | some sref =>
            dsimp only
            by_cases hg : pos + sref.length ≤ cs.length ∧ (cs.drop pos).take sref.length = sref
            · rw [if_pos hg, if_pos hg]
              exact ihm (pos + sref.length) rest cs caps sl st (by omega) hg.1
            · rw [if_neg hg, if_neg hg]
              right
              simp [endEq]
    have MO : ∀ (pos : Nat) (inner : Node) (rest : List Node) (cs : List Char)
        (caps : Caps) (sl st : Nat), st ≤ pos → pos ≤ cs.length →
        step (f + 1) (.mo pos inner (rest ++ [.CapEnd sl st]) cs caps) = .timeout ∨
        endEq (step (f + 1) (.mo pos inner (rest ++ [.CapEnd sl st]) cs caps))
          (step (f + 1) (.mo pos inner rest cs caps)) := by
      intro pos inner rest cs caps sl st hst hpos
      rw [step_mo_eq, step_mo_eq]
      cases hin : step f (.m pos [inner] cs caps) with
      | timeout => left; rfl
      | crash => right; simp [endEq]
      | fail => right; simp [endEq]
      | ok p1 c1 =>
        have hb := step_ok_le f _ _ _ hin
        simp [reqPos, reqCs] at hb
        dsimp only
        rcases ihmo p1 inner rest cs c1 sl st (by omega) (hb.2 hpos) with hT | hE
        · rw [hT]
          left
          rfl
        · rcases endEq_cases _ _ hE with ⟨hL, hR⟩ | ⟨hL, hR⟩ | ⟨hL, hR⟩ |
            ⟨e, c2, c3, hL, hR⟩
          · rw [hL]
            left
            rfl
          · rw [hL, hR]
            right
            simp [endEq]
          · rw [hL, hR]
            exact ihm p1 rest cs c1 sl st (by omega) (hb.2 hpos)
          · rw [hL, hR]
            right
            simp [endEq]
    have TB : ∀ (brs : List (List Node)) (slot pos : Nat) (tail : List Node)
        (cs : List Char) (caps : Caps) (sl st : Nat), st ≤ pos → pos ≤ cs.length →
        step (f + 1) (.tb brs slot pos (tail ++ [.CapEnd sl st]) cs caps) = .timeout ∨
        endEq (step (f + 1) (.tb brs slot pos (tail ++ [.CapEnd sl st]) cs caps))
          (step (f + 1) (.tb brs slot pos tail cs caps)) := by
      intro brs slot pos tail cs caps sl st hst hpos
      cases brs with
      | nil =>
        rw [step_tb_nil, step_tb_nil]
        right
        simp [endEq]
      | cons b bs =>
        rw [step_tb_cons, step_tb_cons]
        have hassoc : b ++ .CapEnd slot pos :: (tail ++ [.CapEnd sl st]) =
            (b ++ .CapEnd slot pos :: tail) ++ [.CapEnd sl st] := by
          simp
        rw [hassoc]
        rcases ihm pos (b ++ .CapEnd slot pos :: tail) cs caps sl st hst hpos with hT | hE
        · rw [hT]
          left
          rfl
        · rcases endEq_cases _ _ hE with ⟨hL, hR⟩ | ⟨hL, hR⟩ | ⟨hL, hR⟩ |
            ⟨e, c1, c2, hL, hR⟩
          · rw [hL]
            left
            rfl
          · rw [hL, hR]
            right
            simp [endEq]
          · rw [hL, hR]
            exact ihtb bs slot pos tail cs caps sl st hst hpos
          · rw [hL, hR]
            right
            simp [endEq]
    exact ⟨M, MO, TB⟩

theorem splitTopAux_noBar : ∀ (xs : List Char) (d : Int) (cur : List Char), '|' ∉ xs →
    splitTopAux xs d cur = [cur.reverse ++ xs] := by
  intro xs
  induction xs with
  | nil =>
    intro d cur _
    simp [splitTopAux]
  | cons c rest ih =>
    intro d cur hb
    have hc : c ≠ '|' := fun h => hb (h ▸ List.mem_cons_self _ _)
    simp only [splitTopAux]
    rw [if_neg (fun h => hc h.2)]
    rw [ih _ _ (fun hm => hb (List.mem_cons_of_mem _ hm))]
    simp

/-- A bar-free body is a single alternation segment. -/
theorem splitTop_noBar (xs : List Char) (hb : '|' ∉ xs) : splitTop xs = [xs] := by
  unfold splitTop
  rw [splitTopAux_noBar xs 0 [] hb]
  simp

/-- On a group-free input the group counter is never consumed: a successful
parse leaves it unchanged, and the same nodes and leftover are produced for
every starting counter value.  Proved jointly for `elems` and `cont` by
induction on the length bound. -/
theorem elems_cont_gid : ∀ (N : Nat),
    (∀ (xs : List Char), xs.length ≤ N → '(' ∉ xs →
      ∀ (g : Nat) (ns : List Node) (lf : List Char) (g2 : Nat),
      elems xs g = .ok (ns, lf, g2) →
      g2 = g ∧ ∀ (g3 : Nat), elems xs g3 = .ok (ns, lf, g3)) ∧
    (∀ (n : Node) (xs : List Char), xs.length ≤ N → '(' ∉ xs →
      ∀ (g : Nat) (ns : List Node) (lf : List Char) (g2 : Nat),
      cont n xs g = .ok (ns, lf, g2) →
      g2 = g ∧ ∀ (g3 : Nat), cont n xs g3 = .ok (ns, lf, g3)) := by
  intro N
  induction N with
  | zero =>
    constructor
    · intro xs hlen _ g ns lf g2 heq
      have hx : xs = [] := List.eq_nil_of_length_eq_zero (Nat.le_zero.mp hlen)
      subst hx
      simp [elems] at heq
      obtain ⟨h1, h2, h3⟩ := heq
      subst h1
      subst h2
      subst h3
      exact ⟨rfl, fun g3 => by simp [elems]⟩
    · intro n xs hlen _ g ns lf g2 heq
      have hx : xs = [] := List.eq_nil_of_length_eq_zero (Nat.le_zero.mp hlen)
      subst hx
      rw [cont.eq_def] at heq
      split at heq
      · next msg haq => simp [applyQuant] at haq
      · next n2 r2 haq =>
        have haq2 : applyQuant n [] = .ok (n, []) := by simp [applyQuant]
        rw [haq2] at haq
        simp at haq
        obtain ⟨ha1, ha2⟩ := haq
        subst ha1
        subst ha2
        split at heq
        · next msg hel => simp [elems] at hel
        · next ns2 lo gid2 hel =>
          simp [elems] at hel
          obtain ⟨he1, he2, he3⟩ := hel
          subst he1
          subst he2
          subst he3
          simp at heq
          obtain ⟨h1, h2, h3⟩ := heq
          subst h1
          subst h2
          subst h3
          refine ⟨rfl, ?_⟩
          intro g3
          exact cont_nil n g3
  | succ N ih =>
    have E1 : ∀ (xs : List Char), xs.length ≤ N + 1 → '(' ∉ xs →
        ∀ (g : Nat) (ns : List Node) (lf : List Char) (g2 : Nat),
        elems xs g = .ok (ns, lf, g2) →
        g2 = g ∧ ∀ (g3 : Nat), elems xs g3 = .ok (ns, lf, g3) := by
      intro xs hlen hpl g ns lf g2 heq
      cases xs with
      | nil =>
        simp [elems] at heq
        obtain ⟨h1, h2, h3⟩ := heq
        subst h1
        subst h2
        subst h3
        exact ⟨rfl, fun g3 => by simp [elems]⟩
      | cons c rest =>
        simp only [List.length_cons] at hlen
        have hlenr : rest.length ≤ N := by omega
        have hcp : c ≠ '(' := fun hc => hpl (hc ▸ List.mem_cons_self _ _)
        have hplr : '(' ∉ rest := fun hm => hpl (List.mem_cons_of_mem _ hm)
        rw [elems.eq_def] at heq
        dsimp only at heq
        by_cases hcr : c = ')'
        · rw [if_pos hcr] at heq
          simp at heq
          obtain ⟨h1, h2, h3⟩ := heq
          subst h1
          subst h2
          subst h3
          refine ⟨rfl, ?_⟩
          intro g3
          rw [elems.eq_def]
          dsimp only
          rw [if_pos hcr]
        · rw [if_neg hcr] at heq
          by_cases h1 : c = '\\'
          · rw [if_pos h1] at heq
            cases rest with
            | nil => simp at heq
            | cons e rest2 =>
              dsimp only at heq
              have hC := ih.2 _ rest2 (by simp at hlenr; omega)
                (fun hm => hplr (List.mem_cons_of_mem _ hm)) g ns lf g2 heq
              refine ⟨hC.1, ?_⟩
              intro g3
              rw [elems.eq_def]
              dsimp only
              rw [if_neg hcr, if_pos h1]
              try dsimp only
              exact hC.2 g3
          · rw [if_neg h1] at heq
            by_cases h2 : c = '['
            · rw [if_pos h2] at heq
              cases rest with
              | nil => simp at heq
              | cons c0 r0 =>
                dsimp only at heq
                by_cases hb : (c0 == '^') = true
                · rw [if_pos hb] at heq
                  dsimp only [List.tail_cons] at heq
                  split at heq
                  · next c2 rest3 hcl =>
                    split at heq
                    · next hc2 =>
                      have hd : (c2 :: rest3).Sublist r0 := hcl ▸ List.dropWhile_sublist _
                      have hsub3 : rest3.Sublist (c0 :: r0) :=
                        ((((List.Sublist.refl rest3).cons c2).trans hd).cons c0)
                      have hC := ih.2 _ rest3 (Nat.le_trans hsub3.length_le hlenr)
                        (fun hm => hplr (hsub3.subset hm)) g ns lf g2 heq
                      refine ⟨hC.1, ?_⟩
                      intro g3
                      rw [elems.eq_def]
                      dsimp only
                      rw [if_neg hcr, if_neg h1, if_pos h2]
                      try dsimp only
                      rw [if_pos hb]
                      dsimp only [List.tail_cons]
                      split
                      · next c2x rest3x hclx =>
                        rw [hcl] at hclx
                        injection hclx with hi1 hi2
                        subst hi1
                        subst hi2
                        rw [if_pos hc2, if_pos hb]
                        exact hC.2 g3
                      · next hbad =>
                        rw [hcl] at hbad
                        simp at hbad
                    · next => simp at heq
                  · next => simp at heq
                · rw [if_neg hb] at heq
                  split at heq
                  · next c2 rest3 hcl =>
                    split at heq
                    · next hc2 =>
                      have hd : (c2 :: rest3).Sublist (c0 :: r0) :=
                        hcl ▸ List.dropWhile_sublist _
                      have hsub3 : rest3.Sublist (c0 :: r0) :=
                        ((List.Sublist.refl rest3).cons c2).trans hd
                      have hC := ih.2 _ rest3 (Nat.le_trans hsub3.length_le hlenr)
                        (fun hm => hplr (hsub3.subset hm)) g ns lf g2 heq
                      refine ⟨hC.1, ?_⟩
                      intro g3
                      rw [elems.eq_def]
                      dsimp only
                      rw [if_neg hcr, if_neg h1, if_pos h2]
                      try dsimp only
                      rw [if_neg hb]
                      split
                      · next c2x rest3x hclx =>
                        rw [hcl] at hclx
                        injection hclx with hi1 hi2
                        subst hi1
                        subst hi2
                        rw [if_pos hc2, if_neg hb]
                        exact hC.2 g3
                      · next hbad =>
                        rw [hcl] at hbad
                        simp at hbad
                    · next => simp at heq
                  · next => simp at heq
            · rw [if_neg h2, if_neg hcp] at heq
              by_cases h3 : c = '.'
              · rw [if_pos h3] at heq
                have hC := ih.2 _ rest hlenr hplr g ns lf g2 heq
                refine ⟨hC.1, ?_⟩
                intro g3
                rw [elems.eq_def]
                dsimp only
                rw [if_neg hcr, if_neg h1, if_neg h2, if_neg hcp, if_pos h3]
                exact hC.2 g3
              · rw [if_neg h3] at heq
                have hC := ih.2 _ rest hlenr hplr g ns lf g2 heq
                refine ⟨hC.1, ?_⟩
                intro g3
                rw [elems.eq_def]
                dsimp only
                rw [if_neg hcr, if_neg h1, if_neg h2, if_neg hcp, if_neg h3]
                exact hC.2 g3
    have C1 : ∀ (n : Node) (xs : List Char), xs.length ≤ N + 1 → '(' ∉ xs →
        ∀ (g : Nat) (ns : List Node) (lf : List Char) (g2 : Nat),
        cont n xs g = .ok (ns, lf, g2) →
        g2 = g ∧ ∀ (g3 : Nat), cont n xs g3 = .ok (ns, lf, g3) := by
      intro n xs hlen hpl g ns lf g2 heq
      rw [cont.eq_def] at heq
      split at heq
      · simp at heq
      · next n2 r2 haq =>
        split at heq
        · simp at heq
        · next ns2 lo gid2 hel =>
          simp at heq
          obtain ⟨h1, h2, h3⟩ := heq
          subst h1
          subst h2
          subst h3
          have hsub := applyQuant_sublist n xs n2 r2 haq
          have hE := E1 r2 (Nat.le_trans hsub.length_le hlen)
            (fun hm => hpl (hsub.subset hm)) g ns2 lo gid2 hel
          refine ⟨hE.1, ?_⟩
          intro g3
          rw [cont.eq_def]
          split
          · next msg hbad =>
            rw [haq] at hbad
            simp at hbad
          · next n2x r2x hok =>
            rw [haq] at hok
            simp at hok
            obtain ⟨ho1, ho2⟩ := hok
            subst ho1
            subst ho2
            rw [hE.2 g3]
    exact ⟨E1, C1⟩

theorem stripCaret_false : ∀ (l : List Char), (stripCaret l).1 = false →
    (stripCaret l).2 = l := by
  intro l h
  unfold stripCaret at h ⊢
  cases l with
  | nil => rfl
  | cons c rest =>
    dsimp only at h ⊢
    by_cases hc : c = '^'
    · rw [if_pos hc] at h
      simp at h
    · rw [if_neg hc]

/-- Wrapping a group-free, bar-free, unanchored pattern in parentheses
parses to a single capture group holding exactly the pattern's nodes. -/
theorem parse_wrap (p : List Char) (hpl : '(' ∉ p) (hpr : ')' ∉ p) (hbb : '|' ∉ p)
    (ns : List Node) (hp : parse (String.mk p) = .ok (ns, false, false)) :
    parse (String.mk ('(' :: (p ++ [')']))) = .ok ([.Cap 1 [ns]], false, false) := by
  unfold parse at hp
  dsimp only at hp
  split at hp
  · simp at hp
  · next ns2 lf2 gid2 hel2 =>
    simp at hp
    obtain ⟨h1, h2, h3⟩ := hp
    subst h1
    have hscp : (stripCaret p).2 = p := stripCaret_false p h2
    have hsdp : (stripDollar (stripCaret p).2).2 = (stripCaret p).2 :=
      stripDollar_false _ h3
    rw [hsdp, hscp] at hel2
    have hgid := (elems_cont_gid p.length).1 p (Nat.le_refl _) hpl 0 ns2 lf2 gid2 hel2
    have hel1 : elems p 1 = .ok (ns2, lf2, 1) := hgid.2 1
    have hbg : branchesGo [p] 1 = .ok ([ns2], 1) := by
      rw [branchesGo.eq_def]
      dsimp only
      rw [hel1]
      dsimp only
      rw [show branchesGo ([] : List (List Char)) 1 = .ok ([], 1) from by
        simp [branchesGo]]
    have helw : elems ('(' :: (p ++ [')'])) 0 = .ok ([.Cap 1 [ns2]], [], 1) := by
      rw [elems.eq_def]
      dsimp only
      rw [if_neg (by decide), if_neg (by decide), if_neg (by decide), if_pos rfl]
      rw [collectBody_stop p [] hpl hpr]
      dsimp only
      rw [splitTop_noBar p hbb]
      rw [show (0 : Nat) + 1 = 1 from rfl, hbg]
      dsimp only
      exact cont_nil _ _
    have hgl : ('(' :: (p ++ [')'])).getLast? = some ')' := by
      rw [show '(' :: (p ++ [')']) = ('(' :: p) ++ [')'] from by simp]
      exact List.getLast?_concat _
    have hsc : stripCaret ('(' :: (p ++ [')'])) = (false, '(' :: (p ++ [')'])) := by
      unfold stripCaret
      dsimp only
      rw [if_neg (by decide)]
    have hsd : stripDollar ('(' :: (p ++ [')'])) = (false, '(' :: (p ++ [')'])) := by
      refine stripDollar_of_getLast _ ?_
      rw [hgl]
      simp
    unfold parse
    dsimp only
    rw [hsc]
    dsimp only
    rw [hsd]
    dsimp only
    rw [helw]

/-- When the unanchored scan reports "no match", every start offset's
greedy attempt genuinely failed (no fuel exhaustion, no crash, no success). -/
theorem tryStarts_false_all_fail (f : Nat) (ns : List Node) (cs : List Char) :
    ∀ (starts : List Nat), tryStarts f starts ns cs false = .found false →
    ∀ st ∈ starts, match_from f st ns cs [] = .fail := by
  intro starts
  induction starts with
  | nil =>
    intro _ st hst
    simp at hst
  | cons st0 rest ih =>
    intro h st hst
    simp only [tryStarts] at h
    cases hm : match_from f st0 ns cs [] with
    | timeout => rw [hm] at h; simp at h
    | crash => rw [hm] at h; simp at h
    | ok e c =>
      rw [hm] at h
      dsimp only at h
      simp at h
    | fail =>
      rw [hm] at h
      dsimp only at h
      rcases List.mem_cons.mp hst with h1 | h1
      · subst h1
        exact hm
      · exact ih h st h1

/-- The wrapped matcher attempt at a start offset is, up to captures and
extra fuel, the plain attempt on the group body: the capture group adds a
branch dispatch and a final `CapEnd` write, nothing else. -/
theorem wrap_match_relation (g2 : Nat) (st : Nat) (ns : List Node) (cs : List Char)
    (hst : st ≤ cs.length) :
    match_from (g2 + 2) st [.Cap 1 [ns]] cs [] = .timeout ∨
    endEq (match_from (g2 + 2) st [.Cap 1 [ns]] cs []) (step g2 (.m st ns cs [])) := by
  have hW : match_from (g2 + 2) st [.Cap 1 [ns]] cs [] =
      (match step g2 (.m st (ns ++ [.CapEnd 0 st]) cs []) with
       | .fail => step g2 (.tb [] 0 st [] cs [])
       | r => r) := by
    unfold match_from
    rw [show g2 + 2 = (g2 + 1) + 1 from rfl, step_m_cap, show (1 : Nat) - 1 = 0 from rfl,
      step_tb_cons]
  rcases (step_capend_suffix g2).1 st ns cs [] 0 st (Nat.le_refl st) hst with hT | hE
  · left
    rw [hW, hT]
  · rcases endEq_cases _ _ hE with ⟨hL, hR⟩ | ⟨hL, hR⟩ | ⟨hL, hR⟩ | ⟨e, c1, c2, hL, hR⟩
    · left
      rw [hW, hL]
    · right
      rw [hW, hL, hR]
      simp [endEq]
    · rw [hW, hL, hR]
      dsimp only
      cases g2 with
      | zero =>
        left
        rfl
      | succ g3 =>
        right
        rw [step_tb_nil]
        simp [endEq]
    · right
      rw [hW, hL, hR]
      simp [endEq]

theorem wrap_match_relation2 (g : Nat) (st : Nat) (ns : List Node) (cs : List Char)
    (hst : st ≤ cs.length) :
    match_from g st [.Cap 1 [ns]] cs [] = .timeout ∨
    ∃ g2, g = g2 + 2 ∧
      endEq (match_from g st [.Cap 1 [ns]] cs []) (step g2 (.m st ns cs [])) := by
  cases g with
  | zero =>
    left
    rfl
  | succ g1 =>
    cases g1 with
    | zero =>
      left
      rfl
    | succ g2 =>
      rcases wrap_match_relation g2 st ns cs hst with hT | hE
      · left
        exact hT
      · right
        exact ⟨g2, rfl, hE⟩

/-- C8 (amended): wrapping a parenthesis-free, bar-free, unanchored pattern
`p` in a group preserves matching.  If `p` parses (with no anchors), then
`"(" ++ p ++ ")"` parses to a single capture group holding `p`'s nodes, and
whenever the plain pattern reports a match result and the wrapped pattern
does not run out of fuel, the wrapped pattern reports the same result.  The
original claim's side conditions ("no unescaped top-level `'|'`, no
back-reference into the new group's id range") are not sufficient: the
alternation splitter is escape-blind, so an escaped `"\\|"` inside `p`
breaks the round trip (see the counterexample). -/
theorem C8_round_trip_grouping (p : List Char) (ns : List Node)
    (hpl : '(' ∉ p) (hpr : ')' ∉ p) (hbb : '|' ∉ p)
    (hp : parse (String.mk p) = .ok (ns, false, false))
    (f g : Nat) (s : String) (b : Bool)
    (hplain : is_match f s (String.mk p) = .found b)
    (hwnt : is_match g s (String.mk ('(' :: (p ++ [')']))) ≠ .timeout) :
    is_match g s (String.mk ('(' :: (p ++ [')']))) = .found b := by
  have hpw := parse_wrap p hpl hpr hbb ns hp
  have hPT : tryStarts f (List.range (s.data.length + 1)) ns s.data false = .found b := by
    unfold is_match at hplain
    rw [hp] at hplain
    dsimp only at hplain
    rw [if_neg (by decide : ¬((false : Bool) = true))] at hplain
    exact hplain
  have hWT : tryStarts g (List.range (s.data.length + 1)) [.Cap 1 [ns]] s.data false ≠
      .timeout := by
    unfold is_match at hwnt
    rw [hpw] at hwnt
    dsimp only at hwnt
    rw [if_neg (by decide : ¬((false : Bool) = true))] at hwnt
    exact hwnt
  have hmem : ∀ st ∈ List.range (s.data.length + 1), st ≤ s.data.length := by
    intro st h
    exact Nat.lt_succ_iff.mp (List.mem_range.mp h)
  have hNC : NoCEl [Node.Cap 1 [ns]] := parse_noCE _ _ _ _ hpw
  unfold is_match
  rw [hpw]
  dsimp only
  rw [if_neg (by decide : ¬((false : Bool) = true))]
  rcases tryStarts_no_crash g (List.range (s.data.length + 1)) [.Cap 1 [ns]] s.data false
    hNC hmem with hT | ⟨b2, hW⟩
  · exact absurd hT hWT
  rw [hW]
  have hIP := tryStarts_found_iff f ns s.data false (List.range (s.data.length + 1))
    (by rw [hPT]; simp) (by rw [hPT]; simp)
  cases b2 with
  | true =>
    have hIW := tryStarts_found_iff g [Node.Cap 1 [ns]] s.data false
      (List.range (s.data.length + 1)) (by rw [hW]; simp) (by rw [hW]; simp)
    obtain ⟨st, hstm, e, c, hok, _⟩ := hIW.mp hW
    rcases wrap_match_relation2 g st ns s.data (hmem st hstm) with hT2 | ⟨g2, hgeq, hE2⟩
    · rw [hok] at hT2
      simp at hT2
    · rw [hok] at hE2
      rcases endEq_cases _ _ hE2 with ⟨hL, _⟩ | ⟨hL, _⟩ | ⟨hL, _⟩ | ⟨e2, c2, c3, hL, hR⟩
      · simp at hL
      · simp at hL
      · simp at hL
      · cases b with
        | true => rfl
        | false =>
          have hall := tryStarts_false_all_fail f ns s.data _ hPT st hstm
          have hall2 : step f (.m st ns s.data []) = .fail := hall
          rcases Nat.le_total f g2 with hle | hle
          · have hmono := step_mono f g2 hle (.m st ns s.data [])
              (by rw [hall2]; simp)
            rw [hR, hall2] at hmono
            simp at hmono
          · have hmono := step_mono g2 f hle (.m st ns s.data [])
              (by rw [hR]; simp)
            rw [hR, hall2] at hmono
            simp at hmono
  | false =>
    cases b with
    | false => rfl
    | true =>
      obtain ⟨st, hstm, e, c, hok, _⟩ := hIP.mp hPT
      have hok2 : step f (.m st ns s.data []) = .ok e c := hok
      have hallW := tryStarts_false_all_fail g [Node.Cap 1 [ns]] s.data _ hW st hstm
      rcases wrap_match_relation2 g st ns s.data (hmem st hstm) with hT2 | ⟨g2, hgeq, hE2⟩
      · rw [hallW] at hT2
        simp at hT2
      · rw [hallW] at hE2
        rcases endEq_cases _ _ hE2 with ⟨hL, _⟩ | ⟨hL, _⟩ | ⟨_, hR⟩ | ⟨e2, c2, c3, hL, hR⟩
        · simp at hL
        · simp at hL
        · rcases Nat.le_total f g2 with hle | hle
          · have hmono := step_mono f g2 hle (.m st ns s.data [])
              (by rw [hok2]; simp)
            rw [hR, hok2] at hmono
            simp at hmono
          · have hmono := step_mono g2 f hle (.m st ns s.data [])
              (by rw [hR]; simp)
            rw [hR, hok2] at hmono
            simp at hmono
        · simp at hL

/-- C8 counterexample: the pattern `a\|b` contains no UNESCAPED top-level
bar and no back-references, yet wrapping it in a group changes the result:
the alternation splitter inside a group is escape-blind, so `(a\|b)` is
split at the escaped bar, leaving the segment `a\` with a trailing escape —
a parse error — while the plain pattern parses fine (the escaped bar is a
literal `|`). -/
theorem C8_cex_escaped_bar :
    is_match 50 "x" ("a\\|b") = .found false ∧ is_match 50 "x" ("(a\\|b)") = .perr := by
  have hp1 : parse ("a\\|b") = .ok ([.Lit 'a', .Lit '|', .Lit 'b'], false, false) := by
    simp [parse, stripCaret, stripDollar, elems, cont, branchesGo, collectBody, splitTop,
      splitTopAux, applyQuant]
  have hp2 : parse ("(a\\|b)") = .error ("invalid escape") := by
    simp [parse, stripCaret, stripDollar, elems, cont, branchesGo, collectBody, splitTop,
      splitTopAux, applyQuant]
  constructor
  · unfold is_match
    rw [hp1]
    decide
  · unfold is_match
    rw [hp2]

/-- Witness for C8 at `p = "a"`, input `"a"`, fuels 10 and 12. -/
theorem C8_round_trip_grouping_witness :
    '(' ∉ ['a'] ∧ ')' ∉ ['a'] ∧ '|' ∉ ['a'] ∧
      parse (String.mk ['a']) = .ok ([.Lit 'a'], false, false) ∧
      is_match 10 "a" (String.mk ['a']) = .found true ∧
      is_match 12 "a" (String.mk ('(' :: (['a'] ++ [')']))) ≠ .timeout ∧
      is_match 12 "a" (String.mk ('(' :: (['a'] ++ [')']))) = .found true := by
  have hp : parse (String.mk ['a']) = .ok ([.Lit 'a'], false, false) := by
    simp [parse, stripCaret, stripDollar, elems, cont, branchesGo, collectBody, splitTop,
      splitTopAux, applyQuant]
  have hm : is_match 10 "a" (String.mk ['a']) = .found true := by
    unfold is_match
    rw [hp]
    decide
  have hpw : parse (String.mk ('(' :: (['a'] ++ [')']))) =
      .ok ([.Cap 1 [[.Lit 'a']]], false, false) := by
    simp [parse, stripCaret, stripDollar, elems, cont, branchesGo, collectBody, splitTop,
      splitTopAux, applyQuant]
  have hw : is_match 12 "a" (String.mk ('(' :: (['a'] ++ [')']))) = .found true := by
    unfold is_match
    rw [hpw]
    decide
  have hwnt : is_match 12 "a" (String.mk ('(' :: (['a'] ++ [')']))) ≠ .timeout := by
    rw [hw]
    simp
  exact ⟨by decide, by decide, by decide, hp, hm, hwnt,
    C8_round_trip_grouping ['a'] [.Lit 'a'] (by decide) (by decide) (by decide) hp
      10 12 "a" true hm hwnt⟩

end Putao
